import Mathlib

/-!
# Verification of the kanzi compression-core specification

Shallow embedding of the core transforms of the kanzi compression engine
(the C++ sources `ROLZCodec.cpp`, `UTFCodec.cpp`, `X86Codec.cpp`, `BWT.cpp`
and the Go source `function/BWTBlockCodec.go`) together with proofs of the
specification claims about them.

Bytes are modelled as `Nat` values below 256, buffers as `List Nat`,
32-bit machine integers as `Nat` bit patterns below `2^32` converted to
mathematical integers through `toInt32` where the source performs signed
arithmetic.  Constants that live in header files absent from the sources
are introduced with a `Modelled from the spec:` doc comment.
-/

namespace Kanzi

/-! ## Machine-integer helpers -/

/-- Truncate to one byte, as a store into a `byte`/`uint8` does. -/
def byteOf (n : Nat) : Nat := n % 256

/-- Reinterpret a 32-bit pattern as a signed two's-complement value,
as C does when a `uint` is assigned to an `int`. -/
def toInt32 (n : Nat) : Int :=
  if n % 2 ^ 32 < 2 ^ 31 then ((n % 2 ^ 32 : Nat) : Int)
  else ((n % 2 ^ 32 : Nat) : Int) - 2 ^ 32

/-- The 32-bit pattern of an integer (two's complement). -/
def toUInt32 (i : Int) : Nat := (i % (2 ^ 32 : Nat)).toNat

/-- Modelled from the spec: `LittleEndian::readInt32` lives in the absent
`Memory.hpp`; standard little-endian semantics on four consecutive bytes,
given here as the unsigned 32-bit pattern. -/
def leRead32 (b0 b1 b2 b3 : Nat) : Nat :=
  b0 + 256 * b1 + 65536 * b2 + 16777216 * b3

/-- Modelled from the spec: `BigEndian::readInt32` lives in the absent
`Memory.hpp`; standard big-endian semantics, as the unsigned pattern. -/
def beRead32 (b0 b1 b2 b3 : Nat) : Nat :=
  b3 + 256 * b2 + 65536 * b1 + 16777216 * b0

/-- Modelled from the spec: `LittleEndian::readInt16` (absent `Memory.hpp`). -/
def leRead16 (b0 b1 : Nat) : Nat := b0 + 256 * b1

/-- Modelled from the spec: `LittleEndian::writeInt32` (absent `Memory.hpp`);
the four bytes of a 32-bit pattern, low byte first. -/
def leWrite32 (n : Nat) : List Nat :=
  [n % 256, n / 256 % 256, n / 65536 % 256, n / 16777216 % 256]

/-- Modelled from the spec: `BigEndian::writeInt32` (absent `Memory.hpp`);
the four bytes of a 32-bit pattern, high byte first. -/
def beWrite32 (n : Nat) : List Nat :=
  [n / 16777216 % 256, n / 65536 % 256, n / 256 % 256, n % 256]

theorem byteOf_lt (n : Nat) : byteOf n < 256 := Nat.mod_lt _ (by norm_num)

theorem leRead32_lt {b0 b1 b2 b3 : Nat} (h0 : b0 < 256) (h1 : b1 < 256)
    (h2 : b2 < 256) (h3 : b3 < 256) : leRead32 b0 b1 b2 b3 < 2 ^ 32 := by
  unfold leRead32; omega

theorem beRead32_lt {b0 b1 b2 b3 : Nat} (h0 : b0 < 256) (h1 : b1 < 256)
    (h2 : b2 < 256) (h3 : b3 < 256) : beRead32 b0 b1 b2 b3 < 2 ^ 32 := by
  unfold beRead32; omega

theorem leWrite32_leRead32 {b0 b1 b2 b3 : Nat} (h0 : b0 < 256) (h1 : b1 < 256)
    (h2 : b2 < 256) (h3 : b3 < 256) :
    leWrite32 (leRead32 b0 b1 b2 b3) = [b0, b1, b2, b3] := by
  unfold leWrite32 leRead32
  simp only [List.cons.injEq, and_true]
  omega

theorem beWrite32_beRead32 {b0 b1 b2 b3 : Nat} (h0 : b0 < 256) (h1 : b1 < 256)
    (h2 : b2 < 256) (h3 : b3 < 256) :
    beWrite32 (beRead32 b0 b1 b2 b3) = [b0, b1, b2, b3] := by
  unfold beWrite32 beRead32
  simp only [List.cons.injEq, and_true]
  omega

theorem leRead32_leWrite32 (n : Nat) :
    leRead32 (n % 256) (n / 256 % 256) (n / 65536 % 256) (n / 16777216 % 256) =
      n % 2 ^ 32 := by
  unfold leRead32; omega

theorem beRead32_beWrite32 (n : Nat) :
    beRead32 (n / 16777216 % 256) (n / 65536 % 256) (n / 256 % 256) (n % 256) =
      n % 2 ^ 32 := by
  unfold beRead32; omega

theorem toInt32_toUInt32 (i : Int) (h1 : -2 ^ 31 ≤ i) (h2 : i < 2 ^ 31) :
    toInt32 (toUInt32 i) = i := by
  unfold toInt32 toUInt32
  have hmod : i % ((2 ^ 32 : Nat) : Int) = if 0 ≤ i then i else i + 2 ^ 32 := by
    split <;> push_cast <;> omega
  rcases le_or_lt 0 i with hpos | hneg
  · rw [hmod, if_pos hpos]
    have h32 : i.toNat < 2 ^ 32 := by omega
    have h31 : i.toNat < 2 ^ 31 := by omega
    simp [Nat.mod_eq_of_lt h32, h31]
    omega
  · rw [hmod, if_neg (by omega)]
    have h32 : (i + 2 ^ 32).toNat < 2 ^ 32 := by omega
    have h31 : ¬ ((i + 2 ^ 32).toNat < 2 ^ 31) := by omega
    simp [Nat.mod_eq_of_lt h32, h31]
    omega

theorem toUInt32_lt (i : Int) : toUInt32 i < 2 ^ 32 := by
  unfold toUInt32
  have : (0 : Int) < ((2 ^ 32 : Nat) : Int) := by positivity
  have := Int.emod_lt_of_pos i this
  omega

theorem lor_shiftLeft_eq_add {y : Nat} (x k : Nat) (h : y < 2 ^ k) :
    (x <<< k) ||| y = x * 2 ^ k + y := by
  rw [Nat.shiftLeft_eq, Nat.mul_comm, ← Nat.mul_add_lt_is_or h, Nat.mul_comm]

theorem and_255 (x : Nat) : x &&& 255 = x % 256 := by
  have : (255 : Nat) = 2 ^ 8 - 1 := by norm_num
  rw [this, Nat.and_pow_two_sub_one_eq_mod]

theorem and_63 (x : Nat) : x &&& 63 = x % 64 := by
  have : (63 : Nat) = 2 ^ 6 - 1 := by norm_num
  rw [this, Nat.and_pow_two_sub_one_eq_mod]

theorem and_3 (x : Nat) : x &&& 3 = x % 4 := by
  have : (3 : Nat) = 2 ^ 2 - 1 := by norm_num
  rw [this, Nat.and_pow_two_sub_one_eq_mod]

/-! ## `function/BWTBlockCodec.go`: primary-index framing

The Go `BWTBlockCodec` wraps the BWT engine: `Forward` prepends a 1–4 byte
header carrying the primary index and `Inverse` parses the header before
delegating to the BWT inverse.  The BWT engine itself (package
`kanzi/transform`) is not part of the sources; where its behaviour is
needed it is modelled from the spec. -/

namespace BWTBlockCodec

/-- The loop `for 1<<pIndexSizeBits <= primaryIndex { pIndexSizeBits++ }`
starting from a given bit count. -/
def sizeBitsLoop (p bits : Nat) : Nat :=
  if 2 ^ bits ≤ p then sizeBitsLoop p (bits + 1) else bits
termination_by p + 1 - bits
decreasing_by
  have : bits < 2 ^ bits := Nat.lt_two_pow bits
  omega

/-- `pIndexSizeBits` as computed by `Forward`: starts at 6 and grows while
`1 << bits <= primaryIndex`. -/
def pIndexSizeBits (p : Nat) : Nat := sizeBitsLoop p 6

/-- `headerSizeBytes := (2 + pIndexSizeBits + 7) >> 3`. -/
def headerSizeBytes (p : Nat) : Nat := (2 + pIndexSizeBits p + 7) >>> 3

/-- The header bytes written by `Forward`: mode byte
`(blockMode << 6) | ((primaryIndex >> shift) & 0x3F)` followed by the
remaining bytes of the primary index, big-endian. -/
def forwardHeader (p : Nat) : List Nat :=
  let w := pIndexSizeBits p
  let hs := (2 + w + 7) >>> 3
  let shift := (hs - 1) <<< 3
  let blockMode := (((w + 1) >>> 3) <<< 6) ||| ((p >>> shift) &&& 0x3F)
  byteOf blockMode ::
    ((List.range (hs - 1)).map fun i => byteOf (p >>> (shift - 8 * (i + 1))))

/-- `Forward` after the BWT engine ran: the output is the header followed by
the `n` permuted bytes (the source shifts them up by the header size), and
the produced count grows by the header size. -/
def Forward (bwtData : List Nat) (primaryIndex : Nat) : List Nat × Nat :=
  (forwardHeader primaryIndex ++ bwtData,
   bwtData.length + headerSizeBytes primaryIndex)

/-- Outcome of the header-parsing prefix of `Inverse`, keeping the branches
of the Go source apart: indexing `src[0]` on an empty slice panics
(`panicEmpty`), a stored header size above the input length is the error
return (`errShort`), `emptyOk` is the `blockSize == 0` success return, and
`run p h rest` reaches the call `bwt.Inverse(src[h:], dst)` with primary
index `p` after consuming exactly `h` header bytes. -/
inductive InverseOutcome where
  | panicEmpty : InverseOutcome
  | errShort : InverseOutcome
  | emptyOk : InverseOutcome
  | run (primaryIndex headerSize : Nat) (data : List Nat) : InverseOutcome
deriving DecidableEq

/-- The header-parsing prefix of `BWTBlockCodec.Inverse` (lines 94–123 of
the Go source), byte-exact. -/
def inverseHeader (src : List Nat) : InverseOutcome :=
  match src with
  | [] => .panicEmpty
  | b0 :: rest =>
    let blockSize := rest.length + 1
    let blockMode := b0
    let hs := 1 + ((blockMode >>> 6) &&& 0x03)
    if blockSize < hs then .errShort
    else if blockSize = 0 then .emptyOk
    else
      let shift := (hs - 1) <<< 3
      let p0 := (blockMode &&& 0x3F) <<< shift
      let p := (List.range (hs - 1)).foldl
        (fun acc i => acc ||| (((b0 :: rest).getD (i + 1) 0) <<< (shift - 8 * (i + 1)))) p0
      .run p hs ((b0 :: rest).drop hs)

theorem sizeBitsLoop_le (p b : Nat) : b ≤ sizeBitsLoop p b := by
  induction b using sizeBitsLoop.induct (p := p) with
  | case1 x hx ih => rw [sizeBitsLoop, if_pos hx]; omega
  | case2 x hx => rw [sizeBitsLoop, if_neg hx]

theorem lt_two_pow_sizeBitsLoop (p b : Nat) : p < 2 ^ sizeBitsLoop p b := by
  induction b using sizeBitsLoop.induct (p := p) with
  | case1 x hx ih => rwa [sizeBitsLoop, if_pos hx]
  | case2 x hx => rw [sizeBitsLoop, if_neg hx]; omega

theorem sizeBitsLoop_min (p b : Nat) : ∀ c, b ≤ c → p < 2 ^ c → sizeBitsLoop p b ≤ c := by
  induction b using sizeBitsLoop.induct (p := p) with
  | case1 x hx ih =>
    intro c hbc hc
    rw [sizeBitsLoop, if_pos hx]
    have hxc : x ≠ c := by
      rintro rfl
      omega
    exact ih c (by omega) hc
  | case2 x hx =>
    intro c hbc _
    rwa [sizeBitsLoop, if_neg hx]

theorem pIndexSizeBits_spec (p : Nat) :
    6 ≤ pIndexSizeBits p ∧ p < 2 ^ pIndexSizeBits p ∧
      (∀ b, 6 ≤ b → p < 2 ^ b → pIndexSizeBits p ≤ b) :=
  ⟨sizeBitsLoop_le p 6, lt_two_pow_sizeBitsLoop p 6, fun b h hb => sizeBitsLoop_min p 6 b h hb⟩

theorem lor_bytes {a y j : Nat} (m : Nat) (ha : a = 2 ^ j * m) (hy : y < 2 ^ j) :
    a ||| y = a + y := by
  subst ha
  exact (Nat.mul_add_lt_is_or hy m).symm

/-- The big-endian parse loop of `Inverse` reconstructs `p` from the top
bits `p / 2^(8·mm)` and the `mm` following bytes. -/
theorem parse_fold {L : List Nat} {p mm : Nat}
    (hL : ∀ i, i < mm → L.getD (i + 1) 0 = p / 2 ^ (8 * (mm - 1 - i)) % 256) :
    (List.range mm).foldl
      (fun acc i => acc ||| (L.getD (i + 1) 0 <<< (8 * mm - 8 * (i + 1))))
      ((p / 2 ^ (8 * mm)) <<< (8 * mm)) = p := by
  suffices h : ∀ j, j ≤ mm →
      (List.range j).foldl
        (fun acc i => acc ||| (L.getD (i + 1) 0 <<< (8 * mm - 8 * (i + 1))))
        ((p / 2 ^ (8 * mm)) <<< (8 * mm)) =
      p / 2 ^ (8 * (mm - j)) * 2 ^ (8 * (mm - j)) by
    have hfin := h mm le_rfl
    simpa using hfin
  intro j
  induction j with
  | zero =>
    intro _
    simp [Nat.shiftLeft_eq, Nat.mul_comm]
  | succ j ih =>
    intro hj
    rw [List.range_succ, List.foldl_append, ih (by omega)]
    simp only [List.foldl_cons, List.foldl_nil]
    rw [hL j (by omega)]
    have hsh : 8 * mm - 8 * (j + 1) = 8 * (mm - 1 - j) := by omega
    rw [hsh, Nat.shiftLeft_eq]
    have h1 : 8 * (mm - j) = 8 * (mm - 1 - j) + 8 := by omega
    have h2 : mm - (j + 1) = mm - 1 - j := by omega
    rw [h1, h2]
    set s := 8 * (mm - 1 - j) with hs
    have hq : p / 2 ^ (s + 8) = p / 2 ^ s / 256 := by
      rw [pow_add, ← Nat.div_div_eq_div_mul]
      norm_num
    have hylt : p / 2 ^ s % 256 * 2 ^ s < 2 ^ (s + 8) := by
      have : p / 2 ^ s % 256 < 256 := Nat.mod_lt _ (by norm_num)
      calc p / 2 ^ s % 256 * 2 ^ s < 256 * 2 ^ s :=
            (Nat.mul_lt_mul_right (Nat.two_pow_pos s)).mpr this
        _ = 2 ^ (s + 8) := by rw [pow_add]; ring
    rw [lor_bytes (j := s + 8) (p / 2 ^ (s + 8)) (by ring) hylt]
    rw [hq]
    set q := p / 2 ^ s with hqdef
    have hdm := Nat.div_add_mod q 256
    calc q / 256 * 2 ^ (s + 8) + q % 256 * 2 ^ s
        = (q / 256 * 256 + q % 256) * 2 ^ s := by rw [pow_add]; ring
      _ = q * 2 ^ s := by
        have hq256 : q / 256 * 256 + q % 256 = q := by omega
        rw [hq256]

/-- **C2.** For every primary index `p` representable by the 1–4 byte header
format (`p < 2^30`), `Forward` writes a header of exactly `1 + mm` bytes,
`mm = (pIndexBitWidth + 1) >> 3`, where `pIndexBitWidth` is the smallest
integer `≥ 6` with `p < 2^pIndexBitWidth`; byte 0 is
`(mm << 6) | (p >> 8·mm)` whose low six bits are the top six bits of `p`
(`p >> 8·mm < 64`), the remaining bytes carry `p` big-endian, and
`Inverse`'s header parsing recovers exactly `p` after consuming exactly the
`1 + mm` header bytes. -/
theorem header_roundtrip (p : Nat) (hp : p < 2 ^ 30) (data : List Nat) :
    (6 ≤ pIndexSizeBits p ∧ p < 2 ^ pIndexSizeBits p ∧
      (∀ b, 6 ≤ b → p < 2 ^ b → pIndexSizeBits p ≤ b)) ∧
    (forwardHeader p).length = 1 + ((pIndexSizeBits p + 1) >>> 3) ∧
    headerSizeBytes p = 1 + ((pIndexSizeBits p + 1) >>> 3) ∧
    (forwardHeader p).getD 0 0 =
      ((((pIndexSizeBits p + 1) >>> 3) <<< 6) |||
        (p >>> (8 * ((pIndexSizeBits p + 1) >>> 3)))) ∧
    p >>> (8 * ((pIndexSizeBits p + 1) >>> 3)) < 64 ∧
    inverseHeader (forwardHeader p ++ data) =
      InverseOutcome.run p (1 + ((pIndexSizeBits p + 1) >>> 3)) data := by
  obtain ⟨hw6, hwp, hwmin⟩ := pIndexSizeBits_spec p
  have hw30 : pIndexSizeBits p ≤ 30 := hwmin 30 (by norm_num) hp
  set w := pIndexSizeBits p with hwdef
  have hsr3 : ∀ x : Nat, x >>> 3 = x / 8 := fun x => Nat.shiftRight_eq_div_pow x 3
  have hsl3 : ∀ x : Nat, x <<< 3 = x * 8 := fun x => Nat.shiftLeft_eq x 3
  have hsl6 : ∀ x : Nat, x <<< 6 = x * 64 := fun x => Nat.shiftLeft_eq x 6
  have hsr6 : ∀ x : Nat, x >>> 6 = x / 64 := fun x => Nat.shiftRight_eq_div_pow x 6
  set mm := (w + 1) >>> 3 with hmmdef
  have hmm8 : mm = (w + 1) / 8 := hsr3 _
  have hmm3 : mm ≤ 3 := by omega
  have hwle : w ≤ 6 + 8 * mm := by omega
  have hple : p < 2 ^ (6 + 8 * mm) :=
    lt_of_lt_of_le hwp (Nat.pow_le_pow_right (by norm_num) hwle)
  have hpow : (2 : Nat) ^ (6 + 8 * mm) = 64 * 2 ^ (8 * mm) := by
    rw [pow_add]
    norm_num
  have htop : p >>> (8 * mm) < 64 := by
    rw [Nat.shiftRight_eq_div_pow]
    apply Nat.div_lt_of_lt_mul
    rw [Nat.mul_comm]
    rw [hpow] at hple
    exact hple
  set t := p >>> (8 * mm) with htdef
  have htval : t = p / 2 ^ (8 * mm) := Nat.shiftRight_eq_div_pow _ _
  have hhs : (2 + w + 7) >>> 3 = 1 + mm := by
    rw [hsr3]
    omega
  have hmask : t &&& 0x3F = t := by
    rw [and_63, Nat.mod_eq_of_lt htop]
  have hmode : (mm <<< 6) ||| t = mm * 64 + t := by
    rw [hsl6]
    exact lor_bytes (j := 6) mm (by ring) htop
  have hmodelt : mm * 64 + t < 256 := by omega
  have hshift : (1 + mm - 1) <<< 3 = 8 * mm := by
    rw [hsl3]
    omega
  have hfwd : forwardHeader p = (mm * 64 + t) ::
      (List.range mm).map (fun i => byteOf (p >>> (8 * mm - 8 * (i + 1)))) := by
    simp only [forwardHeader]
    rw [← hwdef, ← hmmdef, hhs, hshift, Nat.add_sub_cancel_left, ← htdef, hmask, hmode]
    rw [show byteOf (mm * 64 + t) = mm * 64 + t from Nat.mod_eq_of_lt hmodelt]
  refine ⟨⟨hw6, hwp, hwmin⟩, ?_, ?_, ?_, htop, ?_⟩
  · rw [hfwd]
    simp [Nat.add_comm]
  · unfold headerSizeBytes
    rw [← hwdef]
    exact hhs
  · rw [hfwd, List.getD_cons_zero, hmode]
  · -- the parse of the forward header recovers `p` and consumes `1 + mm` bytes
    rw [hfwd]
    simp only [List.cons_append, inverseHeader]
    have hb0 : (mm * 64 + t) >>> 6 &&& 0x03 = mm := by
      rw [hsr6, and_3]
      omega
    have hb0' : mm * 64 + t &&& 0x3F = t := by
      rw [and_63]
      omega
    rw [hb0, hshift, hb0', Nat.add_sub_cancel_left]
    simp only [List.length_append, List.length_map, List.length_range]
    rw [if_neg (by omega), if_neg (by omega)]
    have hL : ∀ i, i < mm →
        ((mm * 64 + t) :: ((List.range mm).map
            (fun i => byteOf (p >>> (8 * mm - 8 * (i + 1)))) ++ data)).getD (i + 1) 0 =
          p / 2 ^ (8 * (mm - 1 - i)) % 256 := by
      intro i hi
      rw [List.getD_cons_succ]
      rw [List.getD_append _ _ _ _ (by simpa using hi)]
      have hget : ((List.range mm).map
          (fun i => byteOf (p >>> (8 * mm - 8 * (i + 1))))).getD i 0 =
            byteOf (p >>> (8 * mm - 8 * (i + 1))) := by
        rw [List.getD_eq_getElem _ _ (by simpa using hi)]
        simp
      rw [hget]
      unfold byteOf
      rw [Nat.shiftRight_eq_div_pow]
      rw [show 8 * mm - 8 * (i + 1) = 8 * (mm - 1 - i) from by omega]
    rw [htval] at hL ⊢
    rw [parse_fold hL]
    have hdrop : ((mm * 64 + p / 2 ^ (8 * mm)) :: ((List.range mm).map
        (fun i => byteOf (p >>> (8 * mm - 8 * (i + 1)))) ++ data)).drop (1 + mm) = data := by
      rw [show 1 + mm = mm + 1 from by omega, List.drop_succ_cons]
      exact List.drop_left' (by simp)
    rw [hdrop]

/-- Witness for **C2**: the round-trip theorem applied at the concrete
primary index `5` (one header byte) with BWT payload `[1, 2, 3]`. -/
theorem header_roundtrip_witness :
    5 < 2 ^ 30 ∧
      inverseHeader (forwardHeader 5 ++ [1, 2, 3]) =
        InverseOutcome.run 5 (1 + ((pIndexSizeBits 5 + 1) >>> 3)) [1, 2, 3] :=
  ⟨by norm_num, (header_roundtrip 5 (by norm_num) [1, 2, 3]).2.2.2.2.2⟩

/-- Modelled from the spec: the Go BWT engine (`kanzi/transform`, not under
`src/`) validates the primary index on inverse; per spec §3/§4.2 every
primary index must lie in `[0, count]` and the inverse fails otherwise.
Only this acceptance predicate of the engine is needed by the claims about
the codec layer; `p` is a Go `uint`, so only the upper bound can fail. -/
def bwtEngineAccepts (data : List Nat) (p : Nat) : Bool := p ≤ data.length

/-- `BWTBlockCodec.Inverse` as a whole: parse the header, then delegate to
the BWT engine.  `none` models the panic on empty input; `some false` an
error or failed inverse; `some true` success. -/
def Inverse (src : List Nat) : Option Bool :=
  match inverseHeader src with
  | .panicEmpty => none
  | .errShort => some false
  | .emptyOk => some true
  | .run p _ data => some (bwtEngineAccepts data p)

/-- **C5.** `BWTBlockCodec.Inverse` returns an error whenever the header
size stored in byte 0 exceeds the input length, and fails whenever the
decoded primary index exceeds the length `n` of the BWT data following the
header (the decoded index is a `uint`, so `≥ 0` always holds). -/
theorem inverse_error_conditions (src : List Nat) :
    (∀ b0 rest, src = b0 :: rest →
      src.length < 1 + ((b0 >>> 6) &&& 0x03) →
      inverseHeader src = InverseOutcome.errShort ∧ Inverse src = some false) ∧
    (∀ p h data, inverseHeader src = InverseOutcome.run p h data →
      p > data.length → Inverse src = some false) := by
  constructor
  · rintro b0 rest rfl hlen
    have hh : inverseHeader (b0 :: rest) = InverseOutcome.errShort := by
      unfold inverseHeader
      simp only [List.length_cons] at hlen ⊢
      rw [if_pos (by omega)]
    refine ⟨hh, ?_⟩
    unfold Inverse
    rw [hh]
  · intro p h data hrun hp
    unfold Inverse
    rw [hrun]
    unfold bwtEngineAccepts
    simp only [Option.some.injEq, decide_eq_false_iff_not]
    omega

/-- Witness for **C5**: input `[0xC0]` stores header size 4 but has length
1 (error), and input `[63]` decodes primary index 63 against 0 data bytes
(failure). -/
theorem inverse_error_conditions_witness :
    ((0xC0 : Nat) :: ([] : List Nat)).length < 1 + ((0xC0 >>> 6) &&& 0x03) ∧
      inverseHeader [0xC0] = InverseOutcome.errShort ∧
      Inverse [0xC0] = some false ∧
      inverseHeader [63] = InverseOutcome.run 63 1 [] ∧
      (63 : Nat) > ([] : List Nat).length ∧
      Inverse [63] = some false := by
  refine ⟨by decide, ?_, ?_, by decide, by decide, ?_⟩
  · exact ((inverse_error_conditions [0xC0]).1 0xC0 [] rfl (by decide)).1
  · exact ((inverse_error_conditions [0xC0]).1 0xC0 [] rfl (by decide)).2
  · exact (inverse_error_conditions [63]).2 63 1 [] (by decide) (by decide)

/-- **C10.** The `blockSize == 0` success branch of `BWTBlockCodec.Inverse`
is unreachable: the function indexes `src[0]` before any length check
(panicking on empty input), and every non-empty input has
`blockSize >= 1`, so the parse never returns the zero-length success. -/
theorem inverse_emptyOk_unreachable (src : List Nat) :
    inverseHeader src ≠ InverseOutcome.emptyOk := by
  unfold inverseHeader
  match src with
  | [] => simp
  | b0 :: rest =>
    simp only
    split
    · simp
    · have : ¬ (rest.length + 1 = 0) := by omega
      rw [if_neg this]
      simp

end BWTBlockCodec

theorem toUInt32_toInt32 (n : Nat) (h : n < 2 ^ 32) : toUInt32 (toInt32 n) = n := by
  unfold toInt32 toUInt32
  rcases lt_or_le n (2 ^ 31) with h31 | h31
  · simp [Nat.mod_eq_of_lt h, h31, Nat.mod_eq_of_lt (show n < 2 ^ 32 from h)]
    omega
  · have hnot : ¬ (n < 2 ^ 31) := by omega
    simp only [Nat.mod_eq_of_lt h, hnot, if_false]
    have : ((n : Int) - 2 ^ 32) % ((2 ^ 32 : Nat) : Int) = (n : Int) := by
      push_cast
      omega
    rw [this]
    exact Int.toNat_natCast n

/-! ## `ROLZCodec.cpp`: reduced-offset Lempel–Ziv

The ROLZ codec dispatcher (`ROLZCodec::forward`) and the match finder
(`ROLZCodec1::findMatch`).  The header `ROLZCodec.hpp` is absent from the
sources; its constants and the two hash functions are modelled from the
spec (§4.3), and the theorems are parametric in them where possible. -/

namespace ROLZCodec

/-- Modelled from the spec: minimum ROLZ block size (design constant from
the absent `ROLZCodec.hpp`; the claims below only need
`0 < MIN_BLOCK_SIZE ≤ MAX_BLOCK_SIZE`). -/
def MIN_BLOCK_SIZE : Nat := 64

/-- Modelled from the spec: maximum ROLZ block size (design constant from
the absent `ROLZCodec.hpp`). -/
def MAX_BLOCK_SIZE : Nat := 1 <<< 30

/-- `HASH_MASK`: the top 8 bits of a 32-bit slot hold the content hash
(spec §4.3 / §9); value from the absent `ROLZCodec.hpp`, modelled as the
top-byte mask of a 32-bit word. -/
def HASH_MASK : Nat := 0xFF000000

/-- Result of `ROLZCodec::forward`: `ok b` models `return b`,
`err` models `throw invalid_argument`. -/
inductive Outcome where
  | ok (b : Bool)
  | err
deriving DecidableEq

/-- `ROLZCodec::forward` (lines 42–68): the argument checks in source
order; `validIn`/`validOut` model `SliceArray::isValid`, `sameArray`
models `input._array == output._array`, and `delegate` abstracts the
result of `_delegate->forward`. -/
def forward (validIn validOut sameArray : Bool) (count : Nat)
    (delegate : Bool) : Outcome :=
  if count = 0 then .ok true
  else if count < MIN_BLOCK_SIZE then .ok false
  else if !validIn then .err
  else if !validOut then .err
  else if sameArray then .ok false
  else if count > MAX_BLOCK_SIZE then .err
  else .ok delegate

/-- **C7.** On valid, non-aliased buffers `ROLZCodec::forward` returns
`true` for `count == 0`, declines with `false` (not an error) for every
`0 < count < MIN_BLOCK_SIZE`, and throws an invalid-argument error for
every `count > MAX_BLOCK_SIZE`. -/
theorem forward_blockSize_checks (count : Nat) (delegate : Bool) :
    (count = 0 → forward true true false count delegate = .ok true) ∧
    (0 < count → count < MIN_BLOCK_SIZE →
      forward true true false count delegate = .ok false) ∧
    (count > MAX_BLOCK_SIZE → forward true true false count delegate = .err) := by
  unfold forward MIN_BLOCK_SIZE MAX_BLOCK_SIZE
  refine ⟨fun h => by simp [h], fun h1 h2 => ?_, fun h => ?_⟩
  · rw [if_neg (by omega), if_pos (by exact h2)]
  · have h64 : (64 : Nat) ≤ 1 <<< 30 := by decide
    rw [if_neg (by omega), if_neg (by omega)]
    simp only [Bool.not_true, Bool.false_eq_true, if_false, if_pos h]

/-- Witness for **C7**: the three branches at `count = 0`, `count = 5` and
`count = 2^30 + 1`. -/
theorem forward_blockSize_checks_witness :
    forward true true false 0 true = .ok true ∧
    (0 < 5 ∧ 5 < MIN_BLOCK_SIZE ∧ forward true true false 5 true = .ok false) ∧
    (2 ^ 30 + 1 > MAX_BLOCK_SIZE ∧ forward true true false (2 ^ 30 + 1) true = .err) :=
  ⟨(forward_blockSize_checks 0 true).1 rfl,
   ⟨by decide, by decide,
    (forward_blockSize_checks 5 true).2.1 (by decide) (by decide)⟩,
   ⟨by decide,
    (forward_blockSize_checks (2 ^ 30 + 1) true).2.2 (by decide)⟩⟩

end ROLZCodec

namespace ROLZCodec1

/-- The 4-byte-stride part of the match extension of `findMatch`
(`memcmp(&buf[ref+n], &curBuf[n], 4) == 0` strides); the leading `if`
plus inner `while` of the source are one guarded loop.  Structural fuel
makes the definition kernel-computable; `maxMatch + 1` steps always
suffice since each step requires `n + 4 < maxMatch`. -/
def ext4 (buf : List Nat) (ref pos maxMatch : Nat) : Nat → Nat → Nat
  | 0, n => n
  | fuel + 1, n =>
    if n + 4 < maxMatch ∧
        buf.getD (ref + n) 0 = buf.getD (pos + n) 0 ∧
        buf.getD (ref + n + 1) 0 = buf.getD (pos + n + 1) 0 ∧
        buf.getD (ref + n + 2) 0 = buf.getD (pos + n + 2) 0 ∧
        buf.getD (ref + n + 3) 0 = buf.getD (pos + n + 3) 0 then
      ext4 buf ref pos maxMatch fuel (n + 4)
    else n

/-- The byte-by-byte tail of the match extension:
`while (n < maxMatch && buf[ref+n] == curBuf[n]) n++`. -/
def ext1 (buf : List Nat) (ref pos maxMatch : Nat) : Nat → Nat → Nat
  | 0, n => n
  | fuel + 1, n =>
    if n < maxMatch ∧ buf.getD (ref + n) 0 = buf.getD (pos + n) 0 then
      ext1 buf ref pos maxMatch fuel (n + 1)
    else n

/-- The match length `n` computed by the two extension loops of
`findMatch`. -/
def matchLength (buf : List Nat) (ref pos maxMatch : Nat) : Nat :=
  ext1 buf ref pos maxMatch (maxMatch + 1)
    (ext4 buf ref pos maxMatch (maxMatch + 1) 0)

/-- The candidate scan `for (i = counter; i > counter - posChecks; i--)` of
`findMatch`, iterated over `d = counter - i` (so `d` runs `0, 1, ...`),
with the C slot index `i & maskChecks` (two's-complement `&` on a possibly
negative `int`) taken as `(counter - d) mod posChecks`; `row` is the row
`&_matches[key << logPosChecks]`.  Tracks `(bestLen, bestIdx)` and breaks
when `bestLen == maxMatch`. -/
def scanLoop (row : Nat → Nat) (buf : List Nat)
    (pos maxMatch counter posChecks hash32 : Nat) :
    Nat → Nat → Nat × Int → Nat × Int
  | 0, _, best => best
  | fuel + 1, d, (bestLen, bestIdx) =>
    let slot := (((counter : Int) - d) % (posChecks : Int)).toNat
    let ref := row slot
    if ref &&& ROLZCodec.HASH_MASK ≠ hash32 then
      scanLoop row buf pos maxMatch counter posChecks hash32 fuel (d + 1)
        (bestLen, bestIdx)
    else
      let ref2 := ref &&& 0xFFFFFF
      if buf.getD (ref2 + bestLen) 0 ≠ buf.getD (pos + bestLen) 0 then
        scanLoop row buf pos maxMatch counter posChecks hash32 fuel (d + 1)
          (bestLen, bestIdx)
      else
        let n := matchLength buf ref2 pos maxMatch
        if n > bestLen then
          if n = maxMatch then (n, (d : Int))
          else scanLoop row buf pos maxMatch counter posChecks hash32 fuel (d + 1)
            (n, (d : Int))
        else
          scanLoop row buf pos maxMatch counter posChecks hash32 fuel (d + 1)
            (bestLen, bestIdx)

/-- `ROLZCodec1::findMatch` (lines 111–162): scans the `posChecks` most
recent registrations under the two-byte-context key, registers the current
position, and returns `-1` or `(bestIdx << 16) | (bestLen - MIN_MATCH)`.
Parametric in the two hash functions `getKey`/`hash` and the constants
`logPosChecks`/`MIN_MATCH`/`MAX_MATCH` from the absent `ROLZCodec.hpp`
(modelled from the spec §4.3, which fixes none of their values). -/
def findMatch (getKeyFn : Nat → Nat → Nat) (hashFn : List Nat → Nat → Nat)
    (logPosChecks minMatch maxMatchCap : Nat)
    (counters mTab : Nat → Nat) (buf : List Nat) (pos endPos : Nat) :
    Int × (Nat → Nat) × (Nat → Nat) :=
  let key := getKeyFn (buf.getD (pos - 2) 0) (buf.getD (pos - 1) 0)
  let posChecks := 1 <<< logPosChecks
  let maskChecks := posChecks - 1
  let counter := counters key
  let hash32 := hashFn buf pos
  let maxMatch := min maxMatchCap (endPos - pos)
  let best := scanLoop (fun s => mTab ((key <<< logPosChecks) + s)) buf pos
    maxMatch counter posChecks hash32 posChecks 0 (0, -1)
  let newCounter := (counter + 1) &&& maskChecks
  let counters1 := Function.update counters key newCounter
  let matches1 := Function.update mTab ((key <<< logPosChecks) + newCounter)
    (hash32 ||| pos)
  (if best.1 < minMatch then (-1 : Int)
   else (((best.2.toNat <<< 16) ||| (best.1 - minMatch) : Nat) : Int),
   counters1, matches1)

/-- The scan either leaves `(bestLen, bestIdx)` untouched or returns a
strictly longer match whose index is the iteration count `dn` at which it
was found, `d ≤ dn < d + fuel`. -/
theorem scanLoop_spec (row : Nat → Nat) (buf : List Nat)
    (pos maxMatch counter posChecks hash32 : Nat) :
    ∀ fuel d bestLen (bestIdx : Int),
      scanLoop row buf pos maxMatch counter posChecks hash32 fuel d
          (bestLen, bestIdx) = (bestLen, bestIdx) ∨
      ∃ dn ln, d ≤ dn ∧ dn < d + fuel ∧ bestLen < ln ∧
        scanLoop row buf pos maxMatch counter posChecks hash32 fuel d
          (bestLen, bestIdx) = (ln, (dn : Int)) := by
  intro fuel
  induction fuel with
  | zero => intro d bl bi; left; rfl
  | succ fuel ih =>
    intro d bl bi
    simp only [scanLoop]
    split_ifs with h1 h2 h3 h4
    · rcases ih (d + 1) bl bi with h | ⟨dn, ln, h5, h6, h7, h8⟩
      · left; exact h
      · right; exact ⟨dn, ln, by omega, by omega, h7, h8⟩
    · rcases ih (d + 1) bl bi with h | ⟨dn, ln, h5, h6, h7, h8⟩
      · left; exact h
      · right; exact ⟨dn, ln, by omega, by omega, h7, h8⟩
    · right
      exact ⟨d, _, le_rfl, by omega, h3, rfl⟩
    · rcases ih (d + 1) (matchLength buf
          (row (((counter : Int) - d) % (posChecks : Int)).toNat &&& 0xFFFFFF)
          pos maxMatch) ((d : Int)) with h | ⟨dn, ln, h5, h6, h7, h8⟩
      · right
        refine ⟨d, _, le_rfl, by omega, h3, h⟩
      · right
        exact ⟨dn, ln, by omega, by omega, by omega, h8⟩
    · rcases ih (d + 1) bl bi with h | ⟨dn, ln, h5, h6, h7, h8⟩
      · left; exact h
      · right; exact ⟨dn, ln, by omega, by omega, h7, h8⟩

/-- The full specification of `findMatch`, with the key, the result and
the scan's best candidate as local definitions. -/
theorem findMatch_full_spec (getKeyFn : Nat → Nat → Nat) (hashFn : List Nat → Nat → Nat)
    (logPosChecks minMatch maxMatchCap : Nat) (hmin : 1 ≤ minMatch)
    (counters mTab : Nat → Nat) (buf : List Nat) (pos endPos : Nat)
    (hpos : 2 ≤ pos) :
    let key := getKeyFn (buf.getD (pos - 2) 0) (buf.getD (pos - 1) 0)
    let r := findMatch getKeyFn hashFn logPosChecks minMatch maxMatchCap
      counters mTab buf pos endPos
    let best := scanLoop (fun s => mTab ((key <<< logPosChecks) + s)) buf pos
      (min maxMatchCap (endPos - pos)) (counters key) (1 <<< logPosChecks)
      (hashFn buf pos) (1 <<< logPosChecks) 0 (0, -1)
    (best.1 < minMatch → r.1 = -1) ∧
    (minMatch ≤ best.1 →
      r.1 = (((best.2.toNat <<< 16) ||| (best.1 - minMatch) : Nat) : Int) ∧
      0 ≤ best.2 ∧ best.2.toNat < 1 <<< logPosChecks) ∧
    r.2.1 key = (counters key + 1) &&& (1 <<< logPosChecks - 1) ∧
    r.2.2 ((key <<< logPosChecks) + ((counters key + 1) &&& (1 <<< logPosChecks - 1))) =
      (hashFn buf pos ||| pos) := by
  intro key r best
  have hbest := scanLoop_spec (fun s => mTab ((key <<< logPosChecks) + s)) buf
    pos (min maxMatchCap (endPos - pos)) (counters key) (1 <<< logPosChecks)
    (hashFn buf pos) (1 <<< logPosChecks) 0 0 (-1)
  refine ⟨?_, ?_, ?_, ?_⟩
  · intro hlt
    show (if best.1 < minMatch then (-1 : Int) else _) = -1
    rw [if_pos hlt]
  · intro hge
    have hnot : ¬ (best.1 < minMatch) := by omega
    refine ⟨?_, ?_⟩
    · show (if best.1 < minMatch then (-1 : Int) else _) = _
      rw [if_neg hnot]
    · rcases hbest with h | ⟨dn, ln, _, h6, _, h8⟩
      · exfalso
        have : best.1 = 0 := by
          show (scanLoop _ _ _ _ _ _ _ _ _ _).1 = 0
          rw [h]
        omega
      · have : best = (ln, (dn : Int)) := h8
        rw [this]
        simp only [Int.toNat_natCast]
        exact ⟨Int.natCast_nonneg dn, by omega⟩
  · show Function.update counters key _ key = _
    rw [Function.update_same]
  · show Function.update mTab _ _ _ = _
    rw [Function.update_same]

/-- **C6.** For every call with `pos ≥ 2`: the returned value of
`findMatch` is `-1` when the best match length found by the scan is
`< MIN_MATCH`, and otherwise equals
`(distance << 16) | (bestLen - MIN_MATCH)` with
`distance ∈ [0, posChecks)`; and after the call `counters[key]` indexes
the most recently written slot of the ring `matches[key]`, which holds
`hash32 | pos` for the current position. -/
theorem findMatch_spec (getKeyFn : Nat → Nat → Nat) (hashFn : List Nat → Nat → Nat)
    (logPosChecks minMatch maxMatchCap : Nat) (hmin : 1 ≤ minMatch)
    (counters mTab : Nat → Nat) (buf : List Nat) (pos endPos : Nat)
    (hpos : 2 ≤ pos) (key : Nat) (r : Int × (Nat → Nat) × (Nat → Nat))
    (best : Nat × Int)
    (hkey : key = getKeyFn (buf.getD (pos - 2) 0) (buf.getD (pos - 1) 0))
    (hr : r = findMatch getKeyFn hashFn logPosChecks minMatch maxMatchCap
      counters mTab buf pos endPos)
    (hbest : best = scanLoop (fun s => mTab ((key <<< logPosChecks) + s)) buf pos
      (min maxMatchCap (endPos - pos)) (counters key) (1 <<< logPosChecks)
      (hashFn buf pos) (1 <<< logPosChecks) 0 (0, -1)) :
    (best.1 < minMatch → r.1 = -1) ∧
    (minMatch ≤ best.1 →
      r.1 = (((best.2.toNat <<< 16) ||| (best.1 - minMatch) : Nat) : Int) ∧
      0 ≤ best.2 ∧ best.2.toNat < 1 <<< logPosChecks) ∧
    r.2.1 key = (counters key + 1) &&& (1 <<< logPosChecks - 1) ∧
    r.2.2 ((key <<< logPosChecks) + ((counters key + 1) &&& (1 <<< logPosChecks - 1))) =
      (hashFn buf pos ||| pos) := by
  subst hkey
  subst hr
  subst hbest
  exact findMatch_full_spec getKeyFn hashFn logPosChecks minMatch maxMatchCap hmin
    counters mTab buf pos endPos hpos

/-- Witness for **C6**: concrete table state (all zero), `pos = 2` in an
8-byte buffer, `logPosChecks = 2`, `MIN_MATCH = 3`, `MAX_MATCH = 10`, with
`getKey` the two-byte little-endian key and a constant-zero `hash`. -/
theorem findMatch_spec_witness :
    1 ≤ 3 ∧ 2 ≤ 2 ∧
    (let key := (fun a b : Nat => a + 256 * b) (([1, 2, 3, 4, 5, 6, 7, 8] :
        List Nat).getD (2 - 2) 0) (([1, 2, 3, 4, 5, 6, 7, 8] : List Nat).getD (2 - 1) 0)
     let r := findMatch (fun a b => a + 256 * b) (fun _ _ => 0) 2 3 10
       (fun _ => 0) (fun _ => 0) [1, 2, 3, 4, 5, 6, 7, 8] 2 8
     let best := scanLoop (fun s => (fun _ : Nat => 0) ((key <<< 2) + s))
       [1, 2, 3, 4, 5, 6, 7, 8] 2 (min 10 (8 - 2)) ((fun _ : Nat => 0) key)
       (1 <<< 2) ((fun _ : List Nat => fun _ : Nat => 0) [1, 2, 3, 4, 5, 6, 7, 8] 2)
       (1 <<< 2) 0 (0, -1)
     (best.1 < 3 → r.1 = -1) ∧
     (3 ≤ best.1 →
       r.1 = (((best.2.toNat <<< 16) ||| (best.1 - 3) : Nat) : Int) ∧
       0 ≤ best.2 ∧ best.2.toNat < 1 <<< 2) ∧
     r.2.1 key = ((fun _ : Nat => 0) key + 1) &&& (1 <<< 2 - 1) ∧
     r.2.2 ((key <<< 2) + (((fun _ : Nat => 0) key + 1) &&& (1 <<< 2 - 1))) =
       ((fun _ : List Nat => fun _ : Nat => 0) [1, 2, 3, 4, 5, 6, 7, 8] 2 ||| 2)) :=
  ⟨by norm_num, by norm_num,
   findMatch_spec (fun a b => a + 256 * b) (fun _ _ => 0) 2 3 10 (by norm_num)
     (fun _ => 0) (fun _ => 0) [1, 2, 3, 4, 5, 6, 7, 8] 2 8 (by norm_num)
     _ _ _ rfl rfl rfl⟩

end ROLZCodec1

/-! ## `UTFCodec.cpp`: UTF-8 alias remapping

`UTFCodec::forward` (lines 837–962) with its validator (lines 1028–1113).
`pack` and the sort comparator live in the absent `UTFCodec.hpp`:
`pack` is a theorem parameter, the sort is modelled from the spec. -/

namespace UTFCodec

/-- Modelled from the spec: `Global::UNDEFINED` (absent `Global.hpp`);
only equality with `DT_UTF8` matters below. -/
def DT_UNDEFINED : Nat := 0

/-- Modelled from the spec: `Global::UTF8` (absent `Global.hpp`). -/
def DT_UTF8 : Nat := 1

/-- Modelled from the spec: the UTF codec minimum block size (absent
`UTFCodec.hpp`); the claims below hold for any positive value. -/
def MIN_BLOCK_SIZE : Nat := 1024

/-- `UTFCodec::SIZES` (source line 834): code-point length per lead-byte
high nibble, `0` marking invalid lead bytes. -/
def SIZES : List Nat := [1, 1, 1, 1, 1, 1, 1, 1, 0, 0, 0, 0, 2, 2, 3, 4]

/-- The skip of up to 4 leading bytes with invalid lead-byte class
(`while (start < 4 && SIZES[src[start] >> 4] == 0) start++`). -/
def startScan (src : List Nat) : Nat → Nat → Nat
  | 0, k => k
  | fuel + 1, k =>
    if k < 4 ∧ SIZES.getD (src.getD k 0 >>> 4) 0 = 0 then startScan src fuel (k + 1)
    else k

/-- Histogram state of `validate`: single-byte counts and the
previous-byte/current-byte pair counts. -/
structure Hist where
  freqs0 : Nat → Nat
  freqs : Nat → Nat → Nat

/-- The histogram loop of `validate`.  The source unrolls it four bytes at
a time with per-lane counters `f0..f3` summed into `freqs0` afterwards,
which counts exactly every byte once and every adjacent pair once with the
previous byte carried across; this is that single loop. -/
def histLoop : List Nat → Nat → Hist → Hist
  | [], _, h => h
  | c :: rest, prv, h =>
    histLoop rest c
      { freqs0 := fun b => if b = c then h.freqs0 b + 1 else h.freqs0 b,
        freqs := fun a b => if a = prv ∧ b = c then h.freqs a b + 1 else h.freqs a b }

/-- `UTFCodec::validate` (lines 1028–1113): rejects forbidden lead bytes
(`C0`, `C1`, `F5..FF`) and forbidden continuations after `E0`/`ED`/`F0`/`F4`,
and requires at least `count / 4` continuation bytes `[80..BF]`. -/
def validate (block : List Nat) (count : Nat) : Bool :=
  let h := histLoop (block.take count) 0 ⟨fun _ => 0, fun _ _ => 0⟩
  if h.freqs0 0xC0 > 0 ∨ h.freqs0 0xC1 > 0 then false
  else if ((List.range 11).map (fun k => 0xF5 + k)).any (fun i => decide (h.freqs0 i > 0)) then
    false
  else if (List.range 256).any (fun i => decide (
      ((i < 0xA0 ∨ i > 0xBF) ∧ h.freqs 0xE0 i > 0) ∨
      ((i < 0x80 ∨ i > 0x9F) ∧ h.freqs 0xED i > 0) ∨
      ((i < 0x90 ∨ i > 0xBF) ∧ h.freqs 0xF0 i > 0) ∨
      ((i < 0x80 ∨ i > 0xBF) ∧ h.freqs 0xF4 i > 0))) then false
  else
    let sum := ((List.range 256).filter (fun i => decide (0x80 ≤ i ∧ i ≤ 0xBF))).foldl
      (fun acc i => acc + h.freqs0 i) 0
    decide (sum ≥ count / 4)

/-- The frequency/alias-map scan of `forward` (lines 880–901): packs code
points from `start` to `count - 4`, counting occurrences in `aliasMap` and
recording each first-seen symbol in `syms` (the `symb[].sym` array); fails
on `pack == 0` or on more than 32767 distinct symbols.  `packFn` returns
`(size, packedValue)` with `size = 0` for failure. -/
def scanSyms (packFn : List Nat → Nat × Nat) (src : List Nat) (countEnd : Nat) :
    Nat → Nat → (Nat → Nat) → List Nat → Bool × (Nat → Nat) × List Nat
  | 0, _, aliasMap, syms => (false, aliasMap, syms)
  | fuel + 1, i, aliasMap, syms =>
    if i < countEnd then
      let sv := packFn (src.drop i)
      if sv.1 = 0 then (false, aliasMap, syms)
      else if aliasMap sv.2 = 0 ∧ syms.length + 1 ≥ 32768 then
        (false, aliasMap, syms ++ [sv.2])
      else
        scanSyms packFn src countEnd fuel (i + sv.1)
          (Function.update aliasMap sv.2 (aliasMap sv.2 + 1))
          (if aliasMap sv.2 = 0 then syms ++ [sv.2] else syms)
    else (true, aliasMap, syms)

/-- Ordered insertion used by the modelled sort. -/
def insertBy (le : Nat → Nat → Bool) (x : Nat) : List Nat → List Nat
  | [] => [x]
  | y :: ys => if le x y then x :: y :: ys else y :: insertBy le x ys

/-- Modelled from the spec: `std::sort(ranks.begin(), ranks.end(),
SortRanks(symb))` with the comparator from the absent `UTFCodec.hpp`;
per the source comment the ranks are sorted by increasing frequency
(ties in unspecified order), here as an insertion sort. -/
def sortBy (le : Nat → Nat → Bool) : List Nat → List Nat
  | [] => []
  | x :: xs => insertBy le x (sortBy le xs)

/-- The alias-emission loop of `forward` (lines 938–949): one byte for an
alias `< 128`, two bytes (`(alias & 0x7F) | 0x80` then `alias >> 7`)
otherwise.  `none` marks the divergence a zero `pack` return would cause
here in the C source (unreachable when the first scan succeeded). -/
def emitAliases (packFn : List Nat → Nat × Nat) (aliasMap : Nat → Nat)
    (src : List Nat) (countEnd : Nat) :
    Nat → Nat → List Nat → Option (List Nat × Nat)
  | 0, srcIdx, acc => if srcIdx < countEnd then none else some (acc, srcIdx)
  | fuel + 1, srcIdx, acc =>
    if srcIdx < countEnd then
      let sv := packFn (src.drop srcIdx)
      if sv.1 = 0 then none
      else
        let al := aliasMap sv.2
        let acc' := if al ≥ 128 then
            acc ++ [byteOf (al ||| 0x80), byteOf (al >>> 7)]
          else acc ++ [byteOf al]
        emitAliases packFn aliasMap src countEnd fuel (srcIdx + sv.1) acc'
    else some (acc, srcIdx)

/-- Result of `UTFCodec::forward`: `err` models the invalid-argument
throws, `diverge` the non-terminating loop a misbehaving `pack` would
cause, `done ok consumed produced` a completed call. -/
inductive Result where
  | err : Result
  | diverge : Result
  | done (ok : Bool) (consumed produced : Nat) : Result
deriving DecidableEq

/-- The body of `forward` after the argument and context checks: start
skip, optional validation, symbol scan, rank sort, header/map/alias/tail
emission, and the final 10%-gain test
`return (res == true) && (dstIdx < count - count / 10)`. -/
def forwardBody (mustValidate : Bool) (packFn : List Nat → Nat × Nat)
    (src : List Nat) (count : Nat) : Result :=
  let start := startScan src 5 0
  if mustValidate ∧ validate (src.drop start) (count - start - 4) = false then
    .done false 0 0
  else
    let scan := scanSyms packFn src (count - 4) (count + 1) start (fun _ => 0) []
    let res := scan.1
    let aliasMap := scan.2.1
    let syms := scan.2.2
    let n := syms.length
    if res = false ∨ n = 0 then .done false 0 0
    else
      let ranks := sortBy
        (fun a b => decide (aliasMap (syms.getD a 0) ≤ aliasMap (syms.getD b 0)))
        (List.range n)
      let ordered := ranks.reverse
      let mapBytes := ordered.foldl (fun bs r =>
          let s := syms.getD r 0
          bs ++ [byteOf (s >>> 16), byteOf (s >>> 8), byteOf s]) []
      let amAlias := ordered.enum.foldl (fun am ir =>
          Function.update am (syms.getD ir.2 0) ir.1) aliasMap
      match emitAliases packFn amAlias src (count - 4) (count + 1) start [] with
      | none => .diverge
      | some (aliasBytes, srcIdx) =>
        let adjust := srcIdx - (count - 4)
        let tail := (src.take count).drop srcIdx
        let dst := [byteOf start, byteOf adjust, byteOf (n >>> 8), byteOf n] ++
          mapBytes ++ src.take start ++ aliasBytes ++ tail
        .done (decide (dst.length < count - count / 10)) (srcIdx + tail.length)
          dst.length

/-- `UTFCodec::forward` (lines 837–962): size and argument checks, then
the context data-type check (`dtCtx = none` models a null context,
`some dt` a context whose `dataType` is `dt`), then the body. -/
def forward (validIn validOut : Bool) (dtCtx : Option Nat)
    (packFn : List Nat → Nat × Nat) (src : List Nat) (count : Nat) : Result :=
  if count = 0 then .done true 0 0
  else if count < MIN_BLOCK_SIZE then .done false 0 0
  else if !validIn then .err
  else if !validOut then .err
  else
    match dtCtx with
    | some dt =>
      if dt ≠ DT_UNDEFINED ∧ dt ≠ DT_UTF8 then .done false 0 0
      else forwardBody (decide (dt ≠ DT_UTF8)) packFn src count
    | none => forwardBody true packFn src count

/-- A completed `forwardBody` returns `true` only under the 10%-gain test:
every other completed branch returns `false`. -/
theorem forwardBody_gain (mustValidate : Bool) (packFn : List Nat → Nat × Nat)
    (src : List Nat) (count : Nat) (c p : Nat)
    (h : forwardBody mustValidate packFn src count = Result.done true c p) :
    p < count - count / 10 := by
  simp only [forwardBody] at h
  split at h
  · exact absurd h (by simp)
  · split at h
    · exact absurd h (by simp)
    · split at h
      · exact absurd h (by simp)
      · rename_i aliasBytes srcIdx heq
        injection h with h1 h2 h3
        subst h3
        exact of_decide_eq_true h1

/-- **C8 (amended).** For every non-empty block (`count > 0`),
`UTFCodec::forward` returns `true` only when the number of produced bytes
is strictly below `count - count / 10`, i.e. the output is at least 10%
smaller than the input; in every other completed case it declines with
`false`.  (The original claim also covered `count = 0`, where the source
returns `true` outright; see the counterexample.) -/
theorem forward_gain_condition (validIn validOut : Bool) (dtCtx : Option Nat)
    (packFn : List Nat → Nat × Nat) (src : List Nat) (count : Nat)
    (hcount : 0 < count) (c p : Nat)
    (h : forward validIn validOut dtCtx packFn src count = Result.done true c p) :
    p < count - count / 10 := by
  unfold forward at h
  rw [if_neg (by omega)] at h
  split at h
  · exact absurd h (by simp)
  · split at h
    · exact absurd h (by simp)
    · split at h
      · exact absurd h (by simp)
      · split at h
        · split at h
          · exact absurd h (by simp)
          · exact forwardBody_gain _ _ _ _ _ _ h
        · exact forwardBody_gain _ _ _ _ _ _ h

/-- Witness for **C8 (amended)**: a completed run that returns `true`
(data-type hint `UTF8`, a `pack` consuming 2000 bytes at once, block size
1024) produces 8 bytes, and the theorem yields `8 < 1024 - 1024 / 10`. -/
theorem forward_gain_condition_witness :
    (0 : Nat) < 1024 ∧
    forward true true (some DT_UTF8) (fun _ => (2000, 0)) [] 1024 =
      Result.done true 2000 8 ∧
    8 < 1024 - 1024 / 10 := by
  refine ⟨by norm_num, by decide, ?_⟩
  exact forward_gain_condition true true (some DT_UTF8) (fun _ => (2000, 0)) [] 1024
    (by norm_num) 2000 8 (by decide)

/-- **C8 counterexample.** At `count = 0` the forward returns `true`
although the produced size `0` is not `< 0 - 0 / 10`: the claim as stated
fails on the empty block. -/
theorem forward_gain_zero_counterexample :
    forward true true none (fun _ => (1, 0)) [] 0 = Result.done true 0 0 ∧
      ¬ ((0 : Nat) < 0 - 0 / 10) :=
  ⟨rfl, by norm_num⟩

end UTFCodec

/-! ## `X86Codec.cpp`: executable filter

`X86Codec::forwardX86` (lines 1179–1245), `forwardARM` (1247–1336) and
`inverseX86` (1360–1411).  The opcode constants live in the absent
`X86Codec.hpp` and are modelled from the spec (§4.7: `E8`/`E9` calls and
jumps, `0F 8x` conditional jumps, an escape byte, a big-endian address
mask). -/

namespace X86Codec

/-- Modelled from the spec: `X86_MASK_JUMP` (absent `X86Codec.hpp`);
`b & 0xFE == 0xE8` selects exactly the `E8`/`E9` opcodes of §4.7. -/
def X86_MASK_JUMP : Nat := 0xFE

/-- Modelled from the spec: `X86_INSTRUCTION_JUMP` (absent header). -/
def X86_INSTRUCTION_JUMP : Nat := 0xE8

/-- Modelled from the spec: `X86_MASK_JCC` (absent header);
`b & 0xF0 == 0x80` selects the `8x` conditional jumps after `0F`. -/
def X86_MASK_JCC : Nat := 0xF0

/-- Modelled from the spec: `X86_INSTRUCTION_JCC` (absent header). -/
def X86_INSTRUCTION_JCC : Nat := 0x80

/-- Modelled from the spec: `X86_TWO_BYTE_PREFIX` of the source (absent
header), the `0F` opcode prefix of §4.7. -/
def X86_TWO_BYTE_PFX : Nat := 0x0F

/-- Modelled from the spec: the `X86_ESCAPE` byte (absent header); any
value that no detection predicate matches works, `0x9B` here
(`0x9B ≠ 0x0F`, `0x9B & 0xFE ≠ 0xE8`, `0x9B & 0xF0 ≠ 0x80`). -/
def X86_ESCAPE : Nat := 0x9B

/-- Modelled from the spec: `X86_ADDR_MASK = (1 << 24) - 1` (absent
header); clamps negative offsets per §4.7. -/
def X86_ADDR_MASK : Nat := 0xFFFFFF

/-- Modelled from the spec: `MASK_ADDRESS`, the XOR mask applied to
absolute addresses before the big-endian write (absent header). -/
def MASK_ADDRESS : Nat := 0xF0F0F0F0

/-- Modelled from the spec: the mode byte for X86 blocks (absent header). -/
def X86_MODE : Nat := 0x40

/-- Modelled from the spec: the mode byte for ARM64 blocks (absent
header). -/
def ARM64_MODE : Nat := 0x20

/-- Modelled from the spec: `ARM_B_OPCODE_MASK` (absent header): top 6
bits of an ARM64 instruction word. -/
def ARM_B_OPCODE_MASK : Nat := 0xFC000000

/-- Modelled from the spec: `ARM_OPCODE_B` (absent header). -/
def ARM_OPCODE_B : Nat := 0x14000000

/-- Modelled from the spec: `ARM_OPCODE_BL` (absent header). -/
def ARM_OPCODE_BL : Nat := 0x94000000

/-- Modelled from the spec: `ARM_B_ADDR_MASK` (absent header): the 26-bit
immediate (§4.7: `sgn(1) + offset(25)` behind the 6 opcode bits). -/
def ARM_B_ADDR_MASK : Nat := 0x03FFFFFF

/-- Modelled from the spec: `ARM_B_ADDR_SGN_MASK` (absent header): the
sign bit of the immediate. -/
def ARM_B_ADDR_SGN_MASK : Nat := 0x02000000

/-- The scan loop of `forwardX86` (lines 1193–1232), one recursive call
per loop-top position `srcIdx`.  Returns the bytes emitted from the loop,
the final `srcIdx`, and the number of rewritten jump targets (`matches`).
`none` only on fuel exhaustion, which the chosen fuel makes unreachable
(every iteration advances `srcIdx`). -/
def fwdLoop (src : List Nat) (codeEnd : Nat) : Nat → Nat → Option (List Nat × Nat × Nat)
  | 0, srcIdx => if srcIdx < codeEnd then none else some ([], srcIdx, 0)
  | fuel + 1, srcIdx =>
    if srcIdx < codeEnd then
      let b := src.getD srcIdx 0
      if b = X86_TWO_BYTE_PFX then
        let nb := src.getD (srcIdx + 1) 0
        if nb &&& X86_MASK_JCC ≠ X86_INSTRUCTION_JCC then
          -- not a relative jump: copy the prefix and the (escaped) byte
          let chunk := if nb = X86_ESCAPE then [b, X86_ESCAPE, nb] else [b, nb]
          (fwdLoop src codeEnd fuel (srcIdx + 2)).map
            (fun r => (chunk ++ r.1, r.2.1, r.2.2))
        else
          -- `0F 8x`: jump handling at the opcode position `srcIdx + 1`
          let q := srcIdx + 1
          let sgn := src.getD (q + 4) 0
          let off := toInt32 (leRead32 (src.getD (q + 1) 0) (src.getD (q + 2) 0)
            (src.getD (q + 3) 0) (src.getD (q + 4) 0))
          if (sgn ≠ 0 ∧ sgn ≠ 0xFF) ∨ off = -16777216 then
            (fwdLoop src codeEnd fuel (q + 1)).map
              (fun r => ([b, X86_ESCAPE, src.getD q 0] ++ r.1, r.2.1, r.2.2))
          else
            let addr : Int := (q : Int) +
              (if sgn = 0 then off else -((toUInt32 (-off) &&& X86_ADDR_MASK : Nat) : Int))
            (fwdLoop src codeEnd fuel (q + 5)).map
              (fun r => ([b, src.getD q 0] ++
                beWrite32 (toUInt32 addr ^^^ MASK_ADDRESS) ++ r.1, r.2.1, r.2.2 + 1))
      else if b &&& X86_MASK_JUMP ≠ X86_INSTRUCTION_JUMP then
        -- not a relative call: copy the (escaped) byte
        let chunk := if b = X86_ESCAPE then [X86_ESCAPE, b] else [b]
        (fwdLoop src codeEnd fuel (srcIdx + 1)).map
          (fun r => (chunk ++ r.1, r.2.1, r.2.2))
      else
        -- `E8`/`E9`: jump handling at the opcode position `srcIdx`
        let sgn := src.getD (srcIdx + 4) 0
        let off := toInt32 (leRead32 (src.getD (srcIdx + 1) 0) (src.getD (srcIdx + 2) 0)
          (src.getD (srcIdx + 3) 0) (src.getD (srcIdx + 4) 0))
        if (sgn ≠ 0 ∧ sgn ≠ 0xFF) ∨ off = -16777216 then
          (fwdLoop src codeEnd fuel (srcIdx + 1)).map
            (fun r => ([X86_ESCAPE, b] ++ r.1, r.2.1, r.2.2))
        else
          let addr : Int := (srcIdx : Int) +
            (if sgn = 0 then off else -((toUInt32 (-off) &&& X86_ADDR_MASK : Nat) : Int))
          (fwdLoop src codeEnd fuel (srcIdx + 5)).map
            (fun r => ([b] ++ beWrite32 (toUInt32 addr ^^^ MASK_ADDRESS) ++ r.1,
              r.2.1, r.2.2 + 1))
    else some ([], srcIdx, 0)

/-- Result of an EXE forward variant: `declined` is the `return false` for
too few matches, `ok dst` the successful output, `fuelOut` the formal
fuel-exhaustion artefact (unreachable for the wrapper's fuel). -/
inductive FwdResult where
  | declined : FwdResult
  | fuelOut : FwdResult
  | ok (dst : List Nat) : FwdResult
deriving DecidableEq

/-- `X86Codec::forwardX86` (lines 1179–1245): mode byte, two
little-endian header words (`codeStart` and the post-loop `dstIdx`), the
copied prefix, the transformed region and the literal tail; declines when
fewer than 16 matches were rewritten. -/
def forwardX86 (src : List Nat) (count codeStart codeEnd : Nat) : FwdResult :=
  match fwdLoop src codeEnd (codeEnd + 1 - codeStart) codeStart with
  | none => .fuelOut
  | some (emitted, srcIdxF, m) =>
    if m < 16 then .declined
    else .ok ([X86_MODE] ++ leWrite32 codeStart ++
      leWrite32 (9 + codeStart + emitted.length) ++
      src.take codeStart ++ emitted ++ (src.take count).drop srcIdxF)

/-- The scan loop of `forwardARM` (lines 1262–1323): 4-byte aligned
instructions; `B`/`BL` targets are absolutised, a zero target is a false
positive emitted as an escape (value plus original word), and four
consecutive false positives break out of the loop.  The `CB` conditional
branch handling is disabled in the source (`isCB = false`, line 1267).
Returns `(emitted, final srcIdx, matches)` counting only true matches. -/
def armLoop (src : List Nat) (codeEnd : Nat) : Nat → Nat → Nat → Option (List Nat × Nat × Nat)
  | 0, srcIdx, _ => if srcIdx < codeEnd then none else some ([], srcIdx, 0)
  | fuel + 1, srcIdx, fpRun =>
    if srcIdx < codeEnd then
      let instr := leRead32 (src.getD srcIdx 0) (src.getD (srcIdx + 1) 0)
        (src.getD (srcIdx + 2) 0) (src.getD (srcIdx + 3) 0)
      let opcode1 := instr &&& ARM_B_OPCODE_MASK
      if opcode1 = ARM_OPCODE_B ∨ opcode1 = ARM_OPCODE_BL then
        let offset := instr &&& ARM_B_ADDR_MASK
        let sgn := instr &&& ARM_B_ADDR_SGN_MASK
        let addr0 : Int := (srcIdx : Int) +
          4 * (if sgn = 0 then (offset : Int) else toInt32 (ARM_B_OPCODE_MASK ||| offset))
        let addr : Int := if addr0 < 0 then 0 else addr0
        let val := opcode1 ||| (addr.toNat >>> 2)
        if addr = 0 then
          if fpRun + 1 = 4 then some ([], srcIdx, 0)  -- early exit of the loop
          else
            (armLoop src codeEnd fuel (srcIdx + 4) (fpRun + 1)).map
              (fun r => (leWrite32 val ++ [src.getD srcIdx 0, src.getD (srcIdx + 1) 0,
                src.getD (srcIdx + 2) 0, src.getD (srcIdx + 3) 0] ++ r.1, r.2.1, r.2.2))
        else
          (armLoop src codeEnd fuel (srcIdx + 4) 0).map
            (fun r => (leWrite32 val ++ r.1, r.2.1, r.2.2 + 1))
      else
        (armLoop src codeEnd fuel (srcIdx + 4) fpRun).map
          (fun r => ([src.getD srcIdx 0, src.getD (srcIdx + 1) 0, src.getD (srcIdx + 2) 0,
            src.getD (srcIdx + 3) 0] ++ r.1, r.2.1, r.2.2))
    else some ([], srcIdx, 0)

/-- `X86Codec::forwardARM` (lines 1247–1336): same framing as
`forwardX86`, declining when fewer than 16 true matches were found. -/
def forwardARM (src : List Nat) (count codeStart codeEnd : Nat) : FwdResult :=
  match armLoop src codeEnd (codeEnd + 1 - codeStart) codeStart 0 with
  | none => .fuelOut
  | some (emitted, srcIdxF, m) =>
    if m < 16 then .declined
    else .ok ([ARM64_MODE] ++ leWrite32 codeStart ++
      leWrite32 (9 + codeStart + emitted.length) ++
      src.take codeStart ++ emitted ++ (src.take count).drop srcIdxF)

/-- The scan loop of `inverseX86` (lines 1375–1404): mirror of `fwdLoop`,
reading the transformed stream at `srcIdx` and rebuilding the original
bytes at `dstIdx`.  Returns `(rebuilt bytes, final srcIdx, final dstIdx)`. -/
def invLoop (src : List Nat) (codeEnd : Nat) : Nat → Nat → Nat → Option (List Nat × Nat × Nat)
  | 0, srcIdx, dstIdx => if srcIdx < codeEnd then none else some ([], srcIdx, dstIdx)
  | fuel + 1, srcIdx, dstIdx =>
    if srcIdx < codeEnd then
      let b := src.getD srcIdx 0
      if b = X86_TWO_BYTE_PFX then
        let nb := src.getD (srcIdx + 1) 0
        if nb &&& X86_MASK_JCC ≠ X86_INSTRUCTION_JCC then
          if nb = X86_ESCAPE then
            (invLoop src codeEnd fuel (srcIdx + 3) (dstIdx + 2)).map
              (fun r => ([b, src.getD (srcIdx + 2) 0] ++ r.1, r.2.1, r.2.2))
          else
            (invLoop src codeEnd fuel (srcIdx + 2) (dstIdx + 2)).map
              (fun r => ([b, nb] ++ r.1, r.2.1, r.2.2))
        else
          -- decode the absolute address after the copied prefix
          let q := srcIdx + 1
          let addr := toInt32 (beRead32 (src.getD (q + 1) 0) (src.getD (q + 2) 0)
            (src.getD (q + 3) 0) (src.getD (q + 4) 0) ^^^ MASK_ADDRESS)
          let offset := addr - (dstIdx + 1)
          let w : Nat := toUInt32 (if 0 ≤ offset then offset
            else -((toUInt32 (-offset) &&& X86_ADDR_MASK : Nat) : Int))
          (invLoop src codeEnd fuel (q + 5) (dstIdx + 6)).map
            (fun r => ([b, src.getD q 0] ++ leWrite32 w ++ r.1, r.2.1, r.2.2))
      else if b &&& X86_MASK_JUMP ≠ X86_INSTRUCTION_JUMP then
        if b = X86_ESCAPE then
          (invLoop src codeEnd fuel (srcIdx + 2) (dstIdx + 1)).map
            (fun r => ([src.getD (srcIdx + 1) 0] ++ r.1, r.2.1, r.2.2))
        else
          (invLoop src codeEnd fuel (srcIdx + 1) (dstIdx + 1)).map
            (fun r => ([b] ++ r.1, r.2.1, r.2.2))
      else
        let addr := toInt32 (beRead32 (src.getD (srcIdx + 1) 0) (src.getD (srcIdx + 2) 0)
          (src.getD (srcIdx + 3) 0) (src.getD (srcIdx + 4) 0) ^^^ MASK_ADDRESS)
        let offset := addr - dstIdx
        let w : Nat := toUInt32 (if 0 ≤ offset then offset
          else -((toUInt32 (-offset) &&& X86_ADDR_MASK : Nat) : Int))
        (invLoop src codeEnd fuel (srcIdx + 5) (dstIdx + 5)).map
          (fun r => ([b] ++ leWrite32 w ++ r.1, r.2.1, r.2.2))
    else some ([], srcIdx, dstIdx)

/-- `X86Codec::inverseX86` (lines 1360–1411): parse the two header words,
copy the prefix, run the mirror loop from `srcIdx = 9 + codeStart`, copy
the tail.  `none` only on the unreachable fuel exhaustion. -/
def inverseX86 (src : List Nat) (count : Nat) : Option (List Nat) :=
  let cs := (toInt32 (leRead32 (src.getD 1 0) (src.getD 2 0) (src.getD 3 0)
    (src.getD 4 0))).toNat
  let ce := (toInt32 (leRead32 (src.getD 5 0) (src.getD 6 0) (src.getD 7 0)
    (src.getD 8 0))).toNat
  match invLoop src ce (ce + 1) (9 + cs) cs with
  | none => none
  | some (rebuilt, srcIdxF, _) =>
    some ((src.take (9 + cs)).drop 9 ++ rebuilt ++ (src.take count).drop srcIdxF)

/-! ### Round-trip of the X86 transform (C3)

The inverse loop is run against the forward loop's output chunk by chunk:
each forward iteration emits one chunk, and one inverse iteration consumes
exactly that chunk and rebuilds the original bytes. -/

theorem getD_lt_256 {src : List Nat} (h : ∀ b ∈ src, b < 256) (i : Nat) :
    src.getD i 0 < 256 := by
  rcases lt_or_le i src.length with hi | hi
  · rw [List.getD_eq_getElem src 0 hi]
    exact h _ (List.getElem_mem hi)
  · rw [List.getD_eq_default src 0 hi]
    norm_num

/-- Reading the transformed stream inside the current chunk. -/
theorem getD_chunk (pre chunk rest suf : List Nat) (j : Nat) (hj : j < chunk.length) :
    (pre ++ (chunk ++ rest) ++ suf).getD (pre.length + j) 0 = chunk.getD j 0 := by
  rw [List.append_assoc, List.getD_append_right _ _ _ _ (by omega)]
  rw [Nat.add_sub_cancel_left]
  rw [List.append_assoc, List.getD_append _ _ _ _ hj]

/-- Splitting a span of the original block at an interior point. -/
theorem span_cons (src : List Nat) (a b : Nat) (hab : a < b) (ha : a < src.length) :
    (src.take b).drop a = src.getD a 0 :: (src.take b).drop (a + 1) := by
  have hlen : a < (src.take b).length := by
    simp only [List.length_take]
    omega
  rw [List.drop_eq_getElem_cons hlen]
  congr 1
  rw [List.getElem_take _, List.getD_eq_getElem src 0 ha]

/-- An empty span. -/
theorem span_nil (src : List Nat) (a : Nat) : (src.take a).drop a = [] := by
  apply List.drop_eq_nil_of_le
  simp only [List.length_take]
  omega

/-- Concatenating adjacent spans. -/
theorem span_append (l : List Nat) (a b c : Nat) (h1 : a ≤ b) (h2 : b ≤ c) :
    (l.take b).drop a ++ (l.take c).drop b = (l.take c).drop a := by
  rcases le_or_lt b l.length with hb | hb
  · have hsplit : l.take c = l.take b ++ (l.take c).drop b := by
      have h3 : (l.take c).take b = l.take b := by
        rw [List.take_take, Nat.min_eq_left h2]
      conv_lhs => rw [← List.take_append_drop b (l.take c)]
      rw [h3]
    conv_rhs => rw [hsplit]
    rw [List.drop_append_of_le_length (by simp only [List.length_take]; omega)]
  · have hc : l.take c = l := List.take_of_length_le (by omega)
    have hbt : l.take b = l := List.take_of_length_le (by omega)
    have hdrop : (l.take c).drop b = [] := by
      rw [hc]
      exact List.drop_eq_nil_of_le (by omega)
    rw [hdrop, hc, hbt, List.append_nil]

/-- The 32-bit pattern written big-endian with the address mask XOR is
read back exactly. -/
theorem mask_be_roundtrip (addr : Int) (h1 : -2 ^ 31 ≤ addr) (h2 : addr < 2 ^ 31) :
    toInt32 (beRead32 ((toUInt32 addr ^^^ MASK_ADDRESS) / 16777216 % 256)
      ((toUInt32 addr ^^^ MASK_ADDRESS) / 65536 % 256)
      ((toUInt32 addr ^^^ MASK_ADDRESS) / 256 % 256)
      ((toUInt32 addr ^^^ MASK_ADDRESS) % 256) ^^^ MASK_ADDRESS) = addr := by
  have hx : toUInt32 addr ^^^ MASK_ADDRESS < 2 ^ 32 :=
    Nat.xor_lt_two_pow (toUInt32_lt addr) (by norm_num [MASK_ADDRESS])
  rw [beRead32_beWrite32, Nat.mod_eq_of_lt hx, Nat.xor_cancel_right]
  exact toInt32_toUInt32 addr h1 h2

/-- For a jump whose escape predicate failed (`sgn ∈ {0, 0xFF}`, offset not
`-2^24`), the branch value reduces to the signed offset itself, and the
inverse's little-endian rewrite reproduces the original four bytes. -/
theorem offset_roundtrip (b1 b2 b3 b4 : Nat) (h1 : b1 < 256) (h2 : b2 < 256)
    (h3 : b3 < 256) (hsgn : b4 = 0 ∨ b4 = 0xFF)
    (hoff : toInt32 (leRead32 b1 b2 b3 b4) ≠ -16777216) :
    (if b4 = 0 then toInt32 (leRead32 b1 b2 b3 b4)
      else -((toUInt32 (-toInt32 (leRead32 b1 b2 b3 b4)) &&& X86_ADDR_MASK : Nat) : Int)) =
      toInt32 (leRead32 b1 b2 b3 b4) ∧
    toUInt32 (toInt32 (leRead32 b1 b2 b3 b4)) = leRead32 b1 b2 b3 b4 ∧
    (0 ≤ toInt32 (leRead32 b1 b2 b3 b4) ↔ b4 = 0) ∧
    leWrite32 (leRead32 b1 b2 b3 b4) = [b1, b2, b3, b4] := by
  have hmask : X86_ADDR_MASK = 2 ^ 24 - 1 := by norm_num [X86_ADDR_MASK]
  rcases hsgn with rfl | rfl
  · -- positive offset: the pattern is below 2^24
    have hp : leRead32 b1 b2 b3 0 < 2 ^ 24 := by
      unfold leRead32
      omega
    have hoffv : toInt32 (leRead32 b1 b2 b3 0) = (leRead32 b1 b2 b3 0 : Int) := by
      unfold toInt32
      rw [Nat.mod_eq_of_lt (by omega)]
      rw [if_pos (by omega)]
    refine ⟨by rw [if_pos rfl], ?_, ?_, ?_⟩
    · rw [hoffv]
      unfold toUInt32
      rw [Int.emod_eq_of_lt (by positivity) (by push_cast; omega)]
      exact Int.toNat_natCast _
    · rw [hoffv]
      constructor
      · intro _; rfl
      · intro _; positivity
    · exact leWrite32_leRead32 h1 h2 h3 (by norm_num)
  · -- negative offset: the pattern has top byte 0xFF
    have hp1 : 255 * 16777216 ≤ leRead32 b1 b2 b3 255 := by
      unfold leRead32
      omega
    have hp2 : leRead32 b1 b2 b3 255 < 2 ^ 32 := leRead32_lt h1 h2 h3 (by norm_num)
    have hoffv : toInt32 (leRead32 b1 b2 b3 255) =
        (leRead32 b1 b2 b3 255 : Int) - 2 ^ 32 := by
      unfold toInt32
      rw [Nat.mod_eq_of_lt hp2]
      rw [if_neg (by omega)]
    have hneg : toInt32 (leRead32 b1 b2 b3 255) < 0 := by
      rw [hoffv]
      have : (leRead32 b1 b2 b3 255 : Int) < 2 ^ 32 := by exact_mod_cast hp2
      omega
    have hlow : -toInt32 (leRead32 b1 b2 b3 255) < 2 ^ 24 := by
      rw [hoffv]
      have : (255 * 16777216 : Int) ≤ (leRead32 b1 b2 b3 255 : Int) := by
        exact_mod_cast hp1
      omega
    have hpos : 0 < -toInt32 (leRead32 b1 b2 b3 255) := by omega
    have htU : (toUInt32 (-toInt32 (leRead32 b1 b2 b3 255)) : Nat) =
        (-toInt32 (leRead32 b1 b2 b3 255)).toNat := by
      unfold toUInt32
      rw [Int.emod_eq_of_lt (by omega) (by push_cast; omega)]
    have hband : toUInt32 (-toInt32 (leRead32 b1 b2 b3 255)) &&& X86_ADDR_MASK =
        toUInt32 (-toInt32 (leRead32 b1 b2 b3 255)) := by
      rw [hmask, Nat.and_pow_two_sub_one_eq_mod, htU]
      exact Nat.mod_eq_of_lt (by omega)
    have hbranch : -((toUInt32 (-toInt32 (leRead32 b1 b2 b3 255)) &&& X86_ADDR_MASK : Nat) : Int)
        = toInt32 (leRead32 b1 b2 b3 255) := by
      rw [hband, htU]
      omega
    refine ⟨by rw [if_neg (by norm_num)]; exact hbranch, ?_, ?_, ?_⟩
    · rw [hoffv]
      unfold toUInt32
      have : ((leRead32 b1 b2 b3 255 : Int) - 2 ^ 32) % ((2 ^ 32 : Nat) : Int) =
          (leRead32 b1 b2 b3 255 : Int) := by
        push_cast
        omega
      rw [this]
      exact Int.toNat_natCast _
    · constructor
      · intro hle; omega
      · intro hz; omega
    · exact leWrite32_leRead32 h1 h2 h3 (by norm_num)

/-- The forward loop advances its cursor, overshoots the code end by at
most 5, and emits at most two bytes per consumed byte. -/
theorem fwdLoop_bounds (src : List Nat) (codeEnd : Nat) :
    ∀ fuel srcIdx emitted srcIdxF m,
      fwdLoop src codeEnd fuel srcIdx = some (emitted, srcIdxF, m) →
      srcIdx ≤ srcIdxF ∧ srcIdxF ≤ max srcIdx (codeEnd + 5) ∧
        emitted.length ≤ 2 * (srcIdxF - srcIdx) := by
  intro fuel
  induction fuel with
  | zero =>
    intro srcIdx emitted srcIdxF m h
    simp only [fwdLoop] at h
    split at h
    · exact absurd h (by simp)
    · rw [Option.some.injEq, Prod.mk.injEq, Prod.mk.injEq] at h
      obtain ⟨h1, h2, h3⟩ := h
      subst h1 h2
      simp
  | succ fuel ih =>
    intro srcIdx emitted srcIdxF m h
    simp only [fwdLoop] at h
    split at h
    case isFalse =>
      rw [Option.some.injEq, Prod.mk.injEq, Prod.mk.injEq] at h
      obtain ⟨h1, h2, h3⟩ := h
      subst h1 h2
      simp
    case isTrue hlt =>
      split at h
      case isTrue hpfx =>
        split at h
        case isTrue hnjcc =>
          rcases hrec : fwdLoop src codeEnd fuel (srcIdx + 2) with _ | ⟨⟨e', s', m'⟩⟩ <;>
            rw [hrec] at h
          · exact absurd h (by simp)
          · simp only [Option.map_some'] at h
            rw [Option.some.injEq, Prod.mk.injEq, Prod.mk.injEq] at h
            obtain ⟨h1, h2, h3⟩ := h
            obtain ⟨ha, hb, hc⟩ := ih _ _ _ _ hrec
            subst h1 h2
            have hcl : (if src.getD (srcIdx + 1) 0 = X86_ESCAPE then
                [src.getD srcIdx 0, X86_ESCAPE, src.getD (srcIdx + 1) 0]
                else [src.getD srcIdx 0, src.getD (srcIdx + 1) 0]).length ≤ 3 := by
              split <;> simp
            simp only [List.length_append]
            omega
        case isFalse hjcc =>
          split at h
          case isTrue hesc =>
            rcases hrec : fwdLoop src codeEnd fuel (srcIdx + 1 + 1) with _ | ⟨⟨e', s', m'⟩⟩ <;>
              rw [hrec] at h
            · exact absurd h (by simp)
            · simp only [Option.map_some'] at h
              rw [Option.some.injEq, Prod.mk.injEq, Prod.mk.injEq] at h
              obtain ⟨h1, h2, h3⟩ := h
              obtain ⟨ha, hb, hc⟩ := ih _ _ _ _ hrec
              subst h1 h2
              simp only [List.length_append, List.length_cons, List.length_nil]
              omega
          case isFalse hok =>
            rcases hrec : fwdLoop src codeEnd fuel (srcIdx + 1 + 5) with _ | ⟨⟨e', s', m'⟩⟩ <;>
              rw [hrec] at h
            · exact absurd h (by simp)
            · simp only [Option.map_some'] at h
              rw [Option.some.injEq, Prod.mk.injEq, Prod.mk.injEq] at h
              obtain ⟨h1, h2, h3⟩ := h
              obtain ⟨ha, hb, hc⟩ := ih _ _ _ _ hrec
              subst h1 h2
              simp only [List.length_append, List.length_cons, List.length_nil,
                beWrite32, List.length_cons]
              omega
      case isFalse hnpfx =>
        split at h
        case isTrue hnjump =>
          rcases hrec : fwdLoop src codeEnd fuel (srcIdx + 1) with _ | ⟨⟨e', s', m'⟩⟩ <;>
            rw [hrec] at h
          · exact absurd h (by simp)
          · simp only [Option.map_some'] at h
            rw [Option.some.injEq, Prod.mk.injEq, Prod.mk.injEq] at h
            obtain ⟨h1, h2, h3⟩ := h
            obtain ⟨ha, hb, hc⟩ := ih _ _ _ _ hrec
            subst h1 h2
            have hcl : (if src.getD srcIdx 0 = X86_ESCAPE then
                [X86_ESCAPE, src.getD srcIdx 0] else [src.getD srcIdx 0]).length ≤ 2 := by
              split <;> simp
            simp only [List.length_append]
            omega
        case isFalse hjump =>
          split at h
          case isTrue hesc =>
            rcases hrec : fwdLoop src codeEnd fuel (srcIdx + 1) with _ | ⟨⟨e', s', m'⟩⟩ <;>
              rw [hrec] at h
            · exact absurd h (by simp)
            · simp only [Option.map_some'] at h
              rw [Option.some.injEq, Prod.mk.injEq, Prod.mk.injEq] at h
              obtain ⟨h1, h2, h3⟩ := h
              obtain ⟨ha, hb, hc⟩ := ih _ _ _ _ hrec
              subst h1 h2
              simp only [List.length_append, List.length_cons, List.length_nil]
              omega
          case isFalse hok =>
            rcases hrec : fwdLoop src codeEnd fuel (srcIdx + 5) with _ | ⟨⟨e', s', m'⟩⟩ <;>
              rw [hrec] at h
            · exact absurd h (by simp)
            · simp only [Option.map_some'] at h
              rw [Option.some.injEq, Prod.mk.injEq, Prod.mk.injEq] at h
              obtain ⟨h1, h2, h3⟩ := h
              obtain ⟨ha, hb, hc⟩ := ih _ _ _ _ hrec
              subst h1 h2
              simp only [List.length_append, List.length_cons, List.length_nil,
                beWrite32, List.length_cons]
              omega

/-- One inverse iteration over a plain literal chunk `[b]`. -/
theorem invLoop_step_lit (L : List Nat) (ce g p dstIdx b : Nat)
    (h0 : L.getD p 0 = b) (hb1 : b ≠ X86_TWO_BYTE_PFX)
    (hb2 : b &&& X86_MASK_JUMP ≠ X86_INSTRUCTION_JUMP)
    (hb3 : b ≠ X86_ESCAPE) (hp : p < ce) :
    invLoop L ce (g + 1) p dstIdx =
      (invLoop L ce g (p + 1) (dstIdx + 1)).map
        (fun r => (b :: r.1, r.2.1, r.2.2)) := by
  simp only [invLoop, if_pos hp, h0, if_neg hb1, if_pos hb2, if_neg hb3]
  rfl

/-- One inverse iteration over an escaped literal chunk `[ESC, c]`. -/
theorem invLoop_step_escLit (L : List Nat) (ce g p dstIdx c : Nat)
    (h0 : L.getD p 0 = X86_ESCAPE) (h1 : L.getD (p + 1) 0 = c) (hp : p < ce) :
    invLoop L ce (g + 1) p dstIdx =
      (invLoop L ce g (p + 2) (dstIdx + 1)).map
        (fun r => (c :: r.1, r.2.1, r.2.2)) := by
  simp only [invLoop, if_pos hp, h0, h1]
  simp [X86_ESCAPE, X86_TWO_BYTE_PFX, X86_MASK_JUMP, X86_INSTRUCTION_JUMP,
    X86_MASK_JCC, X86_INSTRUCTION_JCC]
  exact fun hfalse => absurd hfalse (by decide)

/-- One inverse iteration over a two-byte-prefix literal chunk `[0F, nb]`. -/
theorem invLoop_step_pfxLit (L : List Nat) (ce g p dstIdx nb : Nat)
    (h0 : L.getD p 0 = X86_TWO_BYTE_PFX) (h1 : L.getD (p + 1) 0 = nb)
    (hnjcc : nb &&& X86_MASK_JCC ≠ X86_INSTRUCTION_JCC) (hnesc : nb ≠ X86_ESCAPE)
    (hp : p < ce) :
    invLoop L ce (g + 1) p dstIdx =
      (invLoop L ce g (p + 2) (dstIdx + 2)).map
        (fun r => (X86_TWO_BYTE_PFX :: nb :: r.1, r.2.1, r.2.2)) := by
  simp only [invLoop, if_pos hp, h0, h1, if_pos rfl, if_pos hnjcc, if_neg hnesc]
  simp

/-- One inverse iteration over an escaped prefix chunk `[0F, ESC, c]`. -/
theorem invLoop_step_pfxEsc (L : List Nat) (ce g p dstIdx c : Nat)
    (h0 : L.getD p 0 = X86_TWO_BYTE_PFX) (h1 : L.getD (p + 1) 0 = X86_ESCAPE)
    (h2 : L.getD (p + 2) 0 = c) (hp : p < ce) :
    invLoop L ce (g + 1) p dstIdx =
      (invLoop L ce g (p + 3) (dstIdx + 2)).map
        (fun r => (X86_TWO_BYTE_PFX :: c :: r.1, r.2.1, r.2.2)) := by
  simp only [invLoop, if_pos hp, h0, h1, h2, if_pos rfl]
  simp [X86_ESCAPE, X86_TWO_BYTE_PFX, X86_MASK_JUMP, X86_INSTRUCTION_JUMP,
    X86_MASK_JCC, X86_INSTRUCTION_JCC]
  exact fun hfalse => absurd hfalse (by decide)

/-- One inverse iteration over a transformed conditional jump
`[0F, jb, w1, w2, w3, w4]`. -/
theorem invLoop_step_pfxJump (L : List Nat) (ce g p dstIdx jb w1 w2 w3 w4 : Nat)
    (h0 : L.getD p 0 = X86_TWO_BYTE_PFX) (h1 : L.getD (p + 1) 0 = jb)
    (h2 : L.getD (p + 1 + 1) 0 = w1) (h3 : L.getD (p + 1 + 2) 0 = w2)
    (h4 : L.getD (p + 1 + 3) 0 = w3) (h5 : L.getD (p + 1 + 4) 0 = w4)
    (hjcc : jb &&& X86_MASK_JCC = X86_INSTRUCTION_JCC) (hp : p < ce) :
    invLoop L ce (g + 1) p dstIdx =
      (invLoop L ce g (p + 1 + 5) (dstIdx + 6)).map
        (fun r => (X86_TWO_BYTE_PFX :: jb ::
          leWrite32 (toUInt32
            (if 0 ≤ toInt32 (beRead32 w1 w2 w3 w4 ^^^ MASK_ADDRESS) - (dstIdx + 1 : Int)
             then toInt32 (beRead32 w1 w2 w3 w4 ^^^ MASK_ADDRESS) - (dstIdx + 1 : Int)
             else -((toUInt32 (-(toInt32 (beRead32 w1 w2 w3 w4 ^^^ MASK_ADDRESS) -
               (dstIdx + 1 : Int))) &&& X86_ADDR_MASK : Nat) : Int))) ++ r.1,
          r.2.1, r.2.2)) := by
  simp only [invLoop, if_pos hp, h0, h1, h2, h3, h4, h5, if_pos rfl]
  rw [if_neg (not_ne_iff.mpr hjcc)]
  simp

/-- One inverse iteration over a transformed call/jump
`[jb, w1, w2, w3, w4]`. -/
theorem invLoop_step_jump (L : List Nat) (ce g p dstIdx jb w1 w2 w3 w4 : Nat)
    (h0 : L.getD p 0 = jb)
    (h1 : L.getD (p + 1) 0 = w1) (h2 : L.getD (p + 2) 0 = w2)
    (h3 : L.getD (p + 3) 0 = w3) (h4 : L.getD (p + 4) 0 = w4)
    (hjump : jb &&& X86_MASK_JUMP = X86_INSTRUCTION_JUMP) (hp : p < ce) :
    invLoop L ce (g + 1) p dstIdx =
      (invLoop L ce g (p + 5) (dstIdx + 5)).map
        (fun r => (jb ::
          leWrite32 (toUInt32
            (if 0 ≤ toInt32 (beRead32 w1 w2 w3 w4 ^^^ MASK_ADDRESS) - (dstIdx : Int)
             then toInt32 (beRead32 w1 w2 w3 w4 ^^^ MASK_ADDRESS) - (dstIdx : Int)
             else -((toUInt32 (-(toInt32 (beRead32 w1 w2 w3 w4 ^^^ MASK_ADDRESS) -
               (dstIdx : Int))) &&& X86_ADDR_MASK : Nat) : Int))) ++ r.1,
          r.2.1, r.2.2)) := by
  have hnpfx : jb ≠ X86_TWO_BYTE_PFX := by
    intro hc
    rw [hc] at hjump
    exact absurd hjump (by decide)
  simp only [invLoop, if_pos hp, h0, h1, h2, h3, h4, if_neg hnpfx]
  rw [if_neg (not_ne_iff.mpr hjump)]
  simp

/-- Expanding the first two bytes of a span. -/
theorem span_two (src : List Nat) (a e : Nat) (h1 : a + 2 ≤ e) (h2 : a + 1 < src.length) :
    (src.take e).drop a =
      src.getD a 0 :: src.getD (a + 1) 0 :: (src.take e).drop (a + 2) := by
  rw [span_cons src a e (by omega) (by omega),
    span_cons src (a + 1) e (by omega) (by omega),
    show a + 1 + 1 = a + 2 from by omega]

/-- Expanding the five original bytes consumed by a rewritten call chunk. -/
theorem span_five (src : List Nat) (a e : Nat) (h1 : a + 5 ≤ e) (h2 : a + 4 < src.length) :
    (src.take e).drop a = src.getD a 0 :: src.getD (a + 1) 0 :: src.getD (a + 2) 0 ::
      src.getD (a + 3) 0 :: src.getD (a + 4) 0 :: (src.take e).drop (a + 5) := by
  rw [span_cons src a e (by omega) (by omega),
    span_cons src (a + 1) e (by omega) (by omega),
    show a + 1 + 1 = a + 2 from by omega,
    span_cons src (a + 2) e (by omega) (by omega),
    show a + 2 + 1 = a + 3 from by omega,
    span_cons src (a + 3) e (by omega) (by omega),
    show a + 3 + 1 = a + 4 from by omega,
    span_cons src (a + 4) e (by omega) (by omega),
    show a + 4 + 1 = a + 5 from by omega]

/-- Expanding the six original bytes consumed by a rewritten
conditional-jump chunk. -/
theorem span_six (src : List Nat) (a e : Nat) (h1 : a + 6 ≤ e) (h2 : a + 5 < src.length) :
    (src.take e).drop a = src.getD a 0 :: src.getD (a + 1) 0 :: src.getD (a + 2) 0 ::
      src.getD (a + 3) 0 :: src.getD (a + 4) 0 :: src.getD (a + 5) 0 ::
      (src.take e).drop (a + 6) := by
  rw [span_cons src a e (by omega) (by omega),
    span_cons src (a + 1) e (by omega) (by omega),
    show a + 1 + 1 = a + 2 from by omega,
    span_cons src (a + 2) e (by omega) (by omega),
    show a + 2 + 1 = a + 3 from by omega,
    span_cons src (a + 3) e (by omega) (by omega),
    show a + 3 + 1 = a + 4 from by omega,
    span_cons src (a + 4) e (by omega) (by omega),
    show a + 4 + 1 = a + 5 from by omega,
    span_cons src (a + 5) e (by omega) (by omega),
    show a + 5 + 1 = a + 6 from by omega]

/-- A four-byte little-endian pattern whose top byte is `0` or `0xFF`
decodes to a signed displacement in `[-2^24, 2^24)`. -/
theorem toInt32_leRead32_bounds (b1 b2 b3 b4 : Nat) (h1 : b1 < 256) (h2 : b2 < 256)
    (h3 : b3 < 256) (hsgn : b4 = 0 ∨ b4 = 0xFF) :
    -2 ^ 24 ≤ toInt32 (leRead32 b1 b2 b3 b4) ∧
      toInt32 (leRead32 b1 b2 b3 b4) < 2 ^ 24 := by
  unfold toInt32 leRead32
  rcases hsgn with rfl | rfl
  · rw [Nat.mod_eq_of_lt (by omega), if_pos (by omega)]
    constructor <;> push_cast <;> omega
  · rw [Nat.mod_eq_of_lt (by omega), if_neg (by omega)]
    constructor <;> push_cast <;> omega

/-- A header word below `2^31` written little-endian parses back to itself. -/
theorem parse_le_header (n : Nat) (h : n < 2 ^ 31) :
    (toInt32 (leRead32 (n % 256) (n / 256 % 256) (n / 65536 % 256)
      (n / 16777216 % 256))).toNat = n := by
  rw [leRead32_leWrite32, Nat.mod_eq_of_lt (show n < 2 ^ 32 from by omega)]
  unfold toInt32
  rw [Nat.mod_eq_of_lt (show n < 2 ^ 32 from by omega), if_pos (by omega)]
  exact Int.toNat_natCast n

/-- Chunk-aligned simulation: an inverse-loop pass over the bytes the
forward loop emitted rebuilds exactly the consumed original bytes, lands
on the emitted-region boundary `ce`, and reports the forward loop's final
cursor as its final `dstIdx`. -/
theorem inv_of_fwd (src : List Nat) (codeEnd : Nat)
    (hbytes : ∀ b ∈ src, b < 256) (hlen : codeEnd + 8 ≤ src.length)
    (hbound : codeEnd ≤ 2 ^ 29) :
    ∀ fuel srcIdx emitted srcIdxF m,
      fwdLoop src codeEnd fuel srcIdx = some (emitted, srcIdxF, m) →
      ∀ g pre suf L ce p, L = pre ++ emitted ++ suf →
        ce = pre.length + emitted.length → p = pre.length → emitted.length ≤ g →
        invLoop L ce g p srcIdx =
          some ((src.take srcIdxF).drop srcIdx, ce, srcIdxF) := by
  intro fuel
  induction fuel with
  | zero =>
    intro srcIdx emitted srcIdxF m h g pre suf L ce p hLdef hcedef hpdef hg
    simp only [fwdLoop] at h
    split at h
    · exact absurd h (by simp)
    · rw [Option.some.injEq, Prod.mk.injEq, Prod.mk.injEq] at h
      obtain ⟨h1, h2, h3⟩ := h
      subst h1 h2 hLdef hcedef hpdef
      rcases g with _ | g <;> simp [invLoop, span_nil]
  | succ fuel ih =>
    intro srcIdx emitted srcIdxF m h g pre suf L ce p hLdef hcedef hpdef hg
    simp only [fwdLoop] at h
    split at h
    case isFalse =>
      rw [Option.some.injEq, Prod.mk.injEq, Prod.mk.injEq] at h
      obtain ⟨h1, h2, h3⟩ := h
      subst h1 h2 hLdef hcedef hpdef
      rcases g with _ | g <;> simp [invLoop, span_nil]
    case isTrue hlt =>
      split at h
      case isTrue hpfx =>
        split at h
        case isTrue hnjcc =>
          by_cases hesc : src.getD (srcIdx + 1) 0 = X86_ESCAPE
          · rw [if_pos hesc] at h
            rcases hrec : fwdLoop src codeEnd fuel (srcIdx + 2) with _ | ⟨⟨e', s', m'⟩⟩ <;>
              rw [hrec] at h
            · exact absurd h (by simp)
            · simp only [Option.map_some'] at h
              rw [Option.some.injEq, Prod.mk.injEq, Prod.mk.injEq] at h
              obtain ⟨h1, h2, h3⟩ := h
              subst h1 h2
              obtain ⟨hadv, -, -⟩ :=
                fwdLoop_bounds src codeEnd fuel (srcIdx + 2) e' s' m' hrec
              have hgne : g ≠ 0 := by
                rintro rfl
                simp only [List.length_append, List.length_cons, List.length_nil] at hg
                omega
              obtain ⟨g', rfl⟩ := Nat.exists_eq_succ_of_ne_zero hgne
              have hp : p < ce := by
                rw [hpdef, hcedef]
                simp only [List.length_append, List.length_cons, List.length_nil]
                omega
              have h0 : L.getD p 0 = X86_TWO_BYTE_PFX := by
                rw [hpdef, hLdef]
                exact (getD_chunk pre
                  [src.getD srcIdx 0, X86_ESCAPE, src.getD (srcIdx + 1) 0]
                  e' suf 0 (by simp)).trans hpfx
              have hr1 : L.getD (p + 1) 0 = X86_ESCAPE := by
                rw [hpdef, hLdef]
                exact getD_chunk pre
                  [src.getD srcIdx 0, X86_ESCAPE, src.getD (srcIdx + 1) 0] e' suf 1 (by simp)
              have hr2 : L.getD (p + 2) 0 = src.getD (srcIdx + 1) 0 := by
                rw [hpdef, hLdef]
                exact getD_chunk pre
                  [src.getD srcIdx 0, X86_ESCAPE, src.getD (srcIdx + 1) 0] e' suf 2 (by simp)
              rw [invLoop_step_pfxEsc L ce g' p srcIdx (src.getD (srcIdx + 1) 0) h0 hr1 hr2 hp]
              have hIH := ih (srcIdx + 2) e' s' m' hrec g'
                (pre ++ [src.getD srcIdx 0, X86_ESCAPE, src.getD (srcIdx + 1) 0]) suf
                L ce (p + 3)
                (by rw [hLdef]; simp [List.append_assoc])
                (by rw [hcedef]
                    simp only [List.length_append, List.length_cons, List.length_nil]
                    omega)
                (by rw [hpdef]
                    simp only [List.length_append, List.length_cons, List.length_nil]
                    try omega)
                (by simp only [List.length_append, List.length_cons, List.length_nil] at hg
                    omega)
              rw [hIH]
              simp only [Option.map_some', Option.some.injEq, Prod.mk.injEq,
                eq_self_iff_true, and_true]
              rw [span_two src srcIdx s' (by omega) (by omega), hpfx]
          · rw [if_neg hesc] at h
            rcases hrec : fwdLoop src codeEnd fuel (srcIdx + 2) with _ | ⟨⟨e', s', m'⟩⟩ <;>
              rw [hrec] at h
            · exact absurd h (by simp)
            · simp only [Option.map_some'] at h
              rw [Option.some.injEq, Prod.mk.injEq, Prod.mk.injEq] at h
              obtain ⟨h1, h2, h3⟩ := h
              subst h1 h2
              obtain ⟨hadv, -, -⟩ :=
                fwdLoop_bounds src codeEnd fuel (srcIdx + 2) e' s' m' hrec
              have hgne : g ≠ 0 := by
                rintro rfl
                simp only [List.length_append, List.length_cons, List.length_nil] at hg
                omega
              obtain ⟨g', rfl⟩ := Nat.exists_eq_succ_of_ne_zero hgne
              have hp : p < ce := by
                rw [hpdef, hcedef]
                simp only [List.length_append, List.length_cons, List.length_nil]
                omega
              have h0 : L.getD p 0 = X86_TWO_BYTE_PFX := by
                rw [hpdef, hLdef]
                exact (getD_chunk pre [src.getD srcIdx 0, src.getD (srcIdx + 1) 0]
                  e' suf 0 (by simp)).trans hpfx
              have hr1 : L.getD (p + 1) 0 = src.getD (srcIdx + 1) 0 := by
                rw [hpdef, hLdef]
                exact getD_chunk pre [src.getD srcIdx 0, src.getD (srcIdx + 1) 0]
                  e' suf 1 (by simp)
              rw [invLoop_step_pfxLit L ce g' p srcIdx (src.getD (srcIdx + 1) 0)
                h0 hr1 hnjcc hesc hp]
              have hIH := ih (srcIdx + 2) e' s' m' hrec g'
                (pre ++ [src.getD srcIdx 0, src.getD (srcIdx + 1) 0]) suf L ce (p + 2)
                (by rw [hLdef]; simp [List.append_assoc])
                (by rw [hcedef]
                    simp only [List.length_append, List.length_cons, List.length_nil]
                    omega)
                (by rw [hpdef]
                    simp only [List.length_append, List.length_cons, List.length_nil]
                    try omega)
                (by simp only [List.length_append, List.length_cons, List.length_nil] at hg
                    omega)
              rw [hIH]
              simp only [Option.map_some', Option.some.injEq, Prod.mk.injEq,
                eq_self_iff_true, and_true]
              rw [span_two src srcIdx s' (by omega) (by omega), hpfx]
        case isFalse hjcc =>
          rw [show srcIdx + 1 + 1 = srcIdx + 2 from by omega,
            show srcIdx + 1 + 2 = srcIdx + 3 from by omega,
            show srcIdx + 1 + 3 = srcIdx + 4 from by omega,
            show srcIdx + 1 + 4 = srcIdx + 5 from by omega,
            show srcIdx + 1 + 5 = srcIdx + 6 from by omega] at h
          split at h
          case isTrue hescp =>
            rcases hrec : fwdLoop src codeEnd fuel (srcIdx + 2) with _ | ⟨⟨e', s', m'⟩⟩ <;>
              rw [hrec] at h
            · exact absurd h (by simp)
            · simp only [Option.map_some'] at h
              rw [Option.some.injEq, Prod.mk.injEq, Prod.mk.injEq] at h
              obtain ⟨h1, h2, h3⟩ := h
              subst h1 h2
              obtain ⟨hadv, -, -⟩ :=
                fwdLoop_bounds src codeEnd fuel (srcIdx + 2) e' s' m' hrec
              have hgne : g ≠ 0 := by
                rintro rfl
                simp only [List.length_append, List.length_cons, List.length_nil] at hg
                omega
              obtain ⟨g', rfl⟩ := Nat.exists_eq_succ_of_ne_zero hgne
              have hp : p < ce := by
                rw [hpdef, hcedef]
                simp only [List.length_append, List.length_cons, List.length_nil]
                omega
              have h0 : L.getD p 0 = X86_TWO_BYTE_PFX := by
                rw [hpdef, hLdef]
                exact (getD_chunk pre
                  [src.getD srcIdx 0, X86_ESCAPE, src.getD (srcIdx + 1) 0]
                  e' suf 0 (by simp)).trans hpfx
              have hr1 : L.getD (p + 1) 0 = X86_ESCAPE := by
                rw [hpdef, hLdef]
                exact getD_chunk pre
                  [src.getD srcIdx 0, X86_ESCAPE, src.getD (srcIdx + 1) 0] e' suf 1 (by simp)
              have hr2 : L.getD (p + 2) 0 = src.getD (srcIdx + 1) 0 := by
                rw [hpdef, hLdef]
                exact getD_chunk pre
                  [src.getD srcIdx 0, X86_ESCAPE, src.getD (srcIdx + 1) 0] e' suf 2 (by simp)
              rw [invLoop_step_pfxEsc L ce g' p srcIdx (src.getD (srcIdx + 1) 0) h0 hr1 hr2 hp]
              have hIH := ih (srcIdx + 2) e' s' m' hrec g'
                (pre ++ [src.getD srcIdx 0, X86_ESCAPE, src.getD (srcIdx + 1) 0]) suf
                L ce (p + 3)
                (by rw [hLdef]; simp [List.append_assoc])
                (by rw [hcedef]
                    simp only [List.length_append, List.length_cons, List.length_nil]
                    omega)
                (by rw [hpdef]
                    simp only [List.length_append, List.length_cons, List.length_nil]
                    try omega)
                (by simp only [List.length_append, List.length_cons, List.length_nil] at hg
                    omega)
              rw [hIH]
              simp only [Option.map_some', Option.some.injEq, Prod.mk.injEq,
                eq_self_iff_true, and_true]
              rw [span_two src srcIdx s' (by omega) (by omega), hpfx]
          case isFalse hescp =>
            obtain ⟨off, hoffdef⟩ : ∃ v, toInt32 (leRead32 (src.getD (srcIdx + 2) 0)
              (src.getD (srcIdx + 3) 0) (src.getD (srcIdx + 4) 0)
              (src.getD (srcIdx + 5) 0)) = v := ⟨_, rfl⟩
            rw [hoffdef] at h hescp
            have hsgn : src.getD (srcIdx + 5) 0 = 0 ∨ src.getD (srcIdx + 5) 0 = 255 := by
              tauto
            have hoffne : off ≠ -16777216 := by tauto
            have hOR := offset_roundtrip (src.getD (srcIdx + 2) 0) (src.getD (srcIdx + 3) 0)
              (src.getD (srcIdx + 4) 0) (src.getD (srcIdx + 5) 0)
              (getD_lt_256 hbytes (srcIdx + 2)) (getD_lt_256 hbytes (srcIdx + 3))
              (getD_lt_256 hbytes (srcIdx + 4)) hsgn
              (by rw [hoffdef]; exact hoffne)
            rw [hoffdef] at hOR
            obtain ⟨hbr, htU, hnn, hlw⟩ := hOR
            rw [hbr] at h
            simp only [beWrite32, List.cons_append, List.nil_append] at h
            obtain ⟨w1, hw1⟩ : ∃ v,
              (toUInt32 (((srcIdx + 1 : Nat) : Int) + off) ^^^ MASK_ADDRESS) /
                16777216 % 256 = v := ⟨_, rfl⟩
            obtain ⟨w2, hw2⟩ : ∃ v,
              (toUInt32 (((srcIdx + 1 : Nat) : Int) + off) ^^^ MASK_ADDRESS) /
                65536 % 256 = v := ⟨_, rfl⟩
            obtain ⟨w3, hw3⟩ : ∃ v,
              (toUInt32 (((srcIdx + 1 : Nat) : Int) + off) ^^^ MASK_ADDRESS) /
                256 % 256 = v := ⟨_, rfl⟩
            obtain ⟨w4, hw4⟩ : ∃ v,
              (toUInt32 (((srcIdx + 1 : Nat) : Int) + off) ^^^ MASK_ADDRESS) %
                256 = v := ⟨_, rfl⟩
            rw [hw1, hw2, hw3, hw4] at h
            rcases hrec : fwdLoop src codeEnd fuel (srcIdx + 6) with _ | ⟨⟨e', s', m'⟩⟩ <;>
              rw [hrec] at h
            · exact absurd h (by simp)
            · simp only [Option.map_some'] at h
              rw [Option.some.injEq, Prod.mk.injEq, Prod.mk.injEq] at h
              obtain ⟨h1, h2, h3⟩ := h
              subst h1 h2
              obtain ⟨hadv, -, -⟩ :=
                fwdLoop_bounds src codeEnd fuel (srcIdx + 6) e' s' m' hrec
              have hgne : g ≠ 0 := by
                rintro rfl
                simp only [List.length_append, List.length_cons, List.length_nil] at hg
                omega
              obtain ⟨g', rfl⟩ := Nat.exists_eq_succ_of_ne_zero hgne
              have hp : p < ce := by
                rw [hpdef, hcedef]
                simp only [List.length_append, List.length_cons, List.length_nil]
                omega
              have h0 : L.getD p 0 = X86_TWO_BYTE_PFX := by
                rw [hpdef, hLdef]
                exact (getD_chunk pre
                  [src.getD srcIdx 0, src.getD (srcIdx + 1) 0, w1, w2, w3, w4]
                  e' suf 0 (by simp)).trans hpfx
              have hr1 : L.getD (p + 1) 0 = src.getD (srcIdx + 1) 0 := by
                rw [hpdef, hLdef]
                exact getD_chunk pre
                  [src.getD srcIdx 0, src.getD (srcIdx + 1) 0, w1, w2, w3, w4]
                  e' suf 1 (by simp)
              have hr2 : L.getD (p + 1 + 1) 0 = w1 := by
                rw [hpdef, hLdef]
                exact getD_chunk pre
                  [src.getD srcIdx 0, src.getD (srcIdx + 1) 0, w1, w2, w3, w4]
                  e' suf 2 (by simp)
              have hr3 : L.getD (p + 1 + 2) 0 = w2 := by
                rw [hpdef, hLdef]
                exact getD_chunk pre
                  [src.getD srcIdx 0, src.getD (srcIdx + 1) 0, w1, w2, w3, w4]
                  e' suf 3 (by simp)
              have hr4 : L.getD (p + 1 + 3) 0 = w3 := by
                rw [hpdef, hLdef]
                exact getD_chunk pre
                  [src.getD srcIdx 0, src.getD (srcIdx + 1) 0, w1, w2, w3, w4]
                  e' suf 4 (by simp)
              have hr5 : L.getD (p + 1 + 4) 0 = w4 := by
                rw [hpdef, hLdef]
                exact getD_chunk pre
                  [src.getD srcIdx 0, src.getD (srcIdx + 1) 0, w1, w2, w3, w4]
                  e' suf 5 (by simp)
              rw [invLoop_step_pfxJump L ce g' p srcIdx (src.getD (srcIdx + 1) 0)
                w1 w2 w3 w4 h0 hr1 hr2 hr3 hr4 hr5 (not_ne_iff.mp hjcc) hp]
              have hIH := ih (srcIdx + 6) e' s' m' hrec g'
                (pre ++ [src.getD srcIdx 0, src.getD (srcIdx + 1) 0, w1, w2, w3, w4]) suf
                L ce (p + 1 + 5)
                (by rw [hLdef]; simp [List.append_assoc])
                (by rw [hcedef]
                    simp only [List.length_append, List.length_cons, List.length_nil]
                    omega)
                (by rw [hpdef]
                    simp only [List.length_append, List.length_cons, List.length_nil]
                    try omega)
                (by simp only [List.length_append, List.length_cons, List.length_nil] at hg
                    omega)
              rw [hIH]
              simp only [Option.map_some', Option.some.injEq, Prod.mk.injEq,
                eq_self_iff_true, and_true]
              have hoffB := toInt32_leRead32_bounds (src.getD (srcIdx + 2) 0)
                (src.getD (srcIdx + 3) 0) (src.getD (srcIdx + 4) 0) (src.getD (srcIdx + 5) 0)
                (getD_lt_256 hbytes (srcIdx + 2)) (getD_lt_256 hbytes (srcIdx + 3))
                (getD_lt_256 hbytes (srcIdx + 4)) hsgn
              rw [hoffdef] at hoffB
              have haddr : toInt32 (beRead32 w1 w2 w3 w4 ^^^ MASK_ADDRESS) =
                  ((srcIdx + 1 : Nat) : Int) + off := by
                rw [← hw1, ← hw2, ← hw3, ← hw4]
                exact mask_be_roundtrip (((srcIdx + 1 : Nat) : Int) + off)
                  (by omega) (by omega)
              rw [haddr,
                show ((srcIdx + 1 : Nat) : Int) + off - ((srcIdx : Int) + 1) = off from by
                  push_cast; ring]
              have hif : (if 0 ≤ off then off
                  else -((toUInt32 (-off) &&& X86_ADDR_MASK : Nat) : Int)) = off := by
                rcases hsgn with hs | hs
                · rw [if_pos (hnn.mpr hs)]
                · have hneg : ¬(0 ≤ off) := by rw [hnn]; omega
                  rw [if_neg hneg]
                  rw [hs, if_neg (by norm_num)] at hbr
                  exact hbr
              rw [hif, htU, hlw, span_six src srcIdx s' (by omega) (by omega), hpfx]
              simp only [List.cons_append, List.nil_append]
      case isFalse hnpfx =>
        split at h
        case isTrue hnjump =>
          by_cases hesc : src.getD srcIdx 0 = X86_ESCAPE
          · rw [if_pos hesc] at h
            rcases hrec : fwdLoop src codeEnd fuel (srcIdx + 1) with _ | ⟨⟨e', s', m'⟩⟩ <;>
              rw [hrec] at h
            · exact absurd h (by simp)
            · simp only [Option.map_some'] at h
              rw [Option.some.injEq, Prod.mk.injEq, Prod.mk.injEq] at h
              obtain ⟨h1, h2, h3⟩ := h
              subst h1 h2
              obtain ⟨hadv, -, -⟩ :=
                fwdLoop_bounds src codeEnd fuel (srcIdx + 1) e' s' m' hrec
              have hgne : g ≠ 0 := by
                rintro rfl
                simp only [List.length_append, List.length_cons, List.length_nil] at hg
                omega
              obtain ⟨g', rfl⟩ := Nat.exists_eq_succ_of_ne_zero hgne
              have hp : p < ce := by
                rw [hpdef, hcedef]
                simp only [List.length_append, List.length_cons, List.length_nil]
                omega
              have h0 : L.getD p 0 = X86_ESCAPE := by
                rw [hpdef, hLdef]
                exact getD_chunk pre [X86_ESCAPE, src.getD srcIdx 0] e' suf 0 (by simp)
              have hr1 : L.getD (p + 1) 0 = src.getD srcIdx 0 := by
                rw [hpdef, hLdef]
                exact getD_chunk pre [X86_ESCAPE, src.getD srcIdx 0] e' suf 1 (by simp)
              rw [invLoop_step_escLit L ce g' p srcIdx (src.getD srcIdx 0) h0 hr1 hp]
              have hIH := ih (srcIdx + 1) e' s' m' hrec g'
                (pre ++ [X86_ESCAPE, src.getD srcIdx 0]) suf L ce (p + 2)
                (by rw [hLdef]; simp [List.append_assoc])
                (by rw [hcedef]
                    simp only [List.length_append, List.length_cons, List.length_nil]
                    omega)
                (by rw [hpdef]
                    simp only [List.length_append, List.length_cons, List.length_nil]
                    try omega)
                (by simp only [List.length_append, List.length_cons, List.length_nil] at hg
                    omega)
              rw [hIH]
              simp only [Option.map_some', Option.some.injEq, Prod.mk.injEq,
                eq_self_iff_true, and_true]
              rw [span_cons src srcIdx s' (by omega) (by omega)]
          · rw [if_neg hesc] at h
            rcases hrec : fwdLoop src codeEnd fuel (srcIdx + 1) with _ | ⟨⟨e', s', m'⟩⟩ <;>
              rw [hrec] at h
            · exact absurd h (by simp)
            · simp only [Option.map_some'] at h
              rw [Option.some.injEq, Prod.mk.injEq, Prod.mk.injEq] at h
              obtain ⟨h1, h2, h3⟩ := h
              subst h1 h2
              obtain ⟨hadv, -, -⟩ :=
                fwdLoop_bounds src codeEnd fuel (srcIdx + 1) e' s' m' hrec
              have hgne : g ≠ 0 := by
                rintro rfl
                simp only [List.length_append, List.length_cons, List.length_nil] at hg
                omega
              obtain ⟨g', rfl⟩ := Nat.exists_eq_succ_of_ne_zero hgne
              have hp : p < ce := by
                rw [hpdef, hcedef]
                simp only [List.length_append, List.length_cons, List.length_nil]
                omega
              have h0 : L.getD p 0 = src.getD srcIdx 0 := by
                rw [hpdef, hLdef]
                exact getD_chunk pre [src.getD srcIdx 0] e' suf 0 (by simp)
              rw [invLoop_step_lit L ce g' p srcIdx (src.getD srcIdx 0)
                h0 hnpfx hnjump hesc hp]
              have hIH := ih (srcIdx + 1) e' s' m' hrec g'
                (pre ++ [src.getD srcIdx 0]) suf L ce (p + 1)
                (by rw [hLdef]; simp [List.append_assoc])
                (by rw [hcedef]
                    simp only [List.length_append, List.length_cons, List.length_nil]
                    omega)
                (by rw [hpdef]
                    simp only [List.length_append, List.length_cons, List.length_nil]
                    try omega)
                (by simp only [List.length_append, List.length_cons, List.length_nil] at hg
                    omega)
              rw [hIH]
              simp only [Option.map_some', Option.some.injEq, Prod.mk.injEq,
                eq_self_iff_true, and_true]
              rw [span_cons src srcIdx s' (by omega) (by omega)]
        case isFalse hjump =>
          split at h
          case isTrue hescp =>
            rcases hrec : fwdLoop src codeEnd fuel (srcIdx + 1) with _ | ⟨⟨e', s', m'⟩⟩ <;>
              rw [hrec] at h
            · exact absurd h (by simp)
            · simp only [Option.map_some'] at h
              rw [Option.some.injEq, Prod.mk.injEq, Prod.mk.injEq] at h
              obtain ⟨h1, h2, h3⟩ := h
              subst h1 h2
              obtain ⟨hadv, -, -⟩ :=
                fwdLoop_bounds src codeEnd fuel (srcIdx + 1) e' s' m' hrec
              have hgne : g ≠ 0 := by
                rintro rfl
                simp only [List.length_append, List.length_cons, List.length_nil] at hg
                omega
              obtain ⟨g', rfl⟩ := Nat.exists_eq_succ_of_ne_zero hgne
              have hp : p < ce := by
                rw [hpdef, hcedef]
                simp only [List.length_append, List.length_cons, List.length_nil]
                omega
              have h0 : L.getD p 0 = X86_ESCAPE := by
                rw [hpdef, hLdef]
                exact getD_chunk pre [X86_ESCAPE, src.getD srcIdx 0] e' suf 0 (by simp)
              have hr1 : L.getD (p + 1) 0 = src.getD srcIdx 0 := by
                rw [hpdef, hLdef]
                exact getD_chunk pre [X86_ESCAPE, src.getD srcIdx 0] e' suf 1 (by simp)
              rw [invLoop_step_escLit L ce g' p srcIdx (src.getD srcIdx 0) h0 hr1 hp]
              have hIH := ih (srcIdx + 1) e' s' m' hrec g'
                (pre ++ [X86_ESCAPE, src.getD srcIdx 0]) suf L ce (p + 2)
                (by rw [hLdef]; simp [List.append_assoc])
                (by rw [hcedef]
                    simp only [List.length_append, List.length_cons, List.length_nil]
                    omega)
                (by rw [hpdef]
                    simp only [List.length_append, List.length_cons, List.length_nil]
                    try omega)
                (by simp only [List.length_append, List.length_cons, List.length_nil] at hg
                    omega)
              rw [hIH]
              simp only [Option.map_some', Option.some.injEq, Prod.mk.injEq,
                eq_self_iff_true, and_true]
              rw [span_cons src srcIdx s' (by omega) (by omega)]
          case isFalse hescp =>
            obtain ⟨off, hoffdef⟩ : ∃ v, toInt32 (leRead32 (src.getD (srcIdx + 1) 0)
              (src.getD (srcIdx + 2) 0) (src.getD (srcIdx + 3) 0)
              (src.getD (srcIdx + 4) 0)) = v := ⟨_, rfl⟩
            rw [hoffdef] at h hescp
            have hsgn : src.getD (srcIdx + 4) 0 = 0 ∨ src.getD (srcIdx + 4) 0 = 255 := by
              tauto
            have hoffne : off ≠ -16777216 := by tauto
            have hOR := offset_roundtrip (src.getD (srcIdx + 1) 0) (src.getD (srcIdx + 2) 0)
              (src.getD (srcIdx + 3) 0) (src.getD (srcIdx + 4) 0)
              (getD_lt_256 hbytes (srcIdx + 1)) (getD_lt_256 hbytes (srcIdx + 2))
              (getD_lt_256 hbytes (srcIdx + 3)) hsgn
              (by rw [hoffdef]; exact hoffne)
            rw [hoffdef] at hOR
            obtain ⟨hbr, htU, hnn, hlw⟩ := hOR
            rw [hbr] at h
            simp only [beWrite32, List.cons_append, List.nil_append] at h
            obtain ⟨w1, hw1⟩ : ∃ v,
              (toUInt32 ((srcIdx : Int) + off) ^^^ MASK_ADDRESS) /
                16777216 % 256 = v := ⟨_, rfl⟩
            obtain ⟨w2, hw2⟩ : ∃ v,
              (toUInt32 ((srcIdx : Int) + off) ^^^ MASK_ADDRESS) /
                65536 % 256 = v := ⟨_, rfl⟩
            obtain ⟨w3, hw3⟩ : ∃ v,
              (toUInt32 ((srcIdx : Int) + off) ^^^ MASK_ADDRESS) /
                256 % 256 = v := ⟨_, rfl⟩
            obtain ⟨w4, hw4⟩ : ∃ v,
              (toUInt32 ((srcIdx : Int) + off) ^^^ MASK_ADDRESS) %
                256 = v := ⟨_, rfl⟩
            rw [hw1, hw2, hw3, hw4] at h
            rcases hrec : fwdLoop src codeEnd fuel (srcIdx + 5) with _ | ⟨⟨e', s', m'⟩⟩ <;>
              rw [hrec] at h
            · exact absurd h (by simp)
            · simp only [Option.map_some'] at h
              rw [Option.some.injEq, Prod.mk.injEq, Prod.mk.injEq] at h
              obtain ⟨h1, h2, h3⟩ := h
              subst h1 h2
              obtain ⟨hadv, -, -⟩ :=
                fwdLoop_bounds src codeEnd fuel (srcIdx + 5) e' s' m' hrec
              have hgne : g ≠ 0 := by
                rintro rfl
                simp only [List.length_append, List.length_cons, List.length_nil] at hg
                omega
              obtain ⟨g', rfl⟩ := Nat.exists_eq_succ_of_ne_zero hgne
              have hp : p < ce := by
                rw [hpdef, hcedef]
                simp only [List.length_append, List.length_cons, List.length_nil]
                omega
              have h0 : L.getD p 0 = src.getD srcIdx 0 := by
                rw [hpdef, hLdef]
                exact getD_chunk pre [src.getD srcIdx 0, w1, w2, w3, w4] e' suf 0 (by simp)
              have hr1 : L.getD (p + 1) 0 = w1 := by
                rw [hpdef, hLdef]
                exact getD_chunk pre [src.getD srcIdx 0, w1, w2, w3, w4] e' suf 1 (by simp)
              have hr2 : L.getD (p + 2) 0 = w2 := by
                rw [hpdef, hLdef]
                exact getD_chunk pre [src.getD srcIdx 0, w1, w2, w3, w4] e' suf 2 (by simp)
              have hr3 : L.getD (p + 3) 0 = w3 := by
                rw [hpdef, hLdef]
                exact getD_chunk pre [src.getD srcIdx 0, w1, w2, w3, w4] e' suf 3 (by simp)
              have hr4 : L.getD (p + 4) 0 = w4 := by
                rw [hpdef, hLdef]
                exact getD_chunk pre [src.getD srcIdx 0, w1, w2, w3, w4] e' suf 4 (by simp)
              rw [invLoop_step_jump L ce g' p srcIdx (src.getD srcIdx 0)
                w1 w2 w3 w4 h0 hr1 hr2 hr3 hr4 (not_ne_iff.mp hjump) hp]
              have hIH := ih (srcIdx + 5) e' s' m' hrec g'
                (pre ++ [src.getD srcIdx 0, w1, w2, w3, w4]) suf L ce (p + 5)
                (by rw [hLdef]; simp [List.append_assoc])
                (by rw [hcedef]
                    simp only [List.length_append, List.length_cons, List.length_nil]
                    omega)
                (by rw [hpdef]
                    simp only [List.length_append, List.length_cons, List.length_nil]
                    try omega)
                (by simp only [List.length_append, List.length_cons, List.length_nil] at hg
                    omega)
              rw [hIH]
              simp only [Option.map_some', Option.some.injEq, Prod.mk.injEq,
                eq_self_iff_true, and_true]
              have hoffB := toInt32_leRead32_bounds (src.getD (srcIdx + 1) 0)
                (src.getD (srcIdx + 2) 0) (src.getD (srcIdx + 3) 0) (src.getD (srcIdx + 4) 0)
                (getD_lt_256 hbytes (srcIdx + 1)) (getD_lt_256 hbytes (srcIdx + 2))
                (getD_lt_256 hbytes (srcIdx + 3)) hsgn
              rw [hoffdef] at hoffB
              have haddr : toInt32 (beRead32 w1 w2 w3 w4 ^^^ MASK_ADDRESS) =
                  (srcIdx : Int) + off := by
                rw [← hw1, ← hw2, ← hw3, ← hw4]
                exact mask_be_roundtrip ((srcIdx : Int) + off) (by omega) (by omega)
              rw [haddr,
                show (srcIdx : Int) + off - (srcIdx : Int) = off from by ring]
              have hif : (if 0 ≤ off then off
                  else -((toUInt32 (-off) &&& X86_ADDR_MASK : Nat) : Int)) = off := by
                rcases hsgn with hs | hs
                · rw [if_pos (hnn.mpr hs)]
                · have hneg : ¬(0 ≤ off) := by rw [hnn]; omega
                  rw [if_neg hneg]
                  rw [hs, if_neg (by norm_num)] at hbr
                  exact hbr
              rw [hif, htU, hlw, span_five src srcIdx s' (by omega) (by omega)]
              simp only [List.cons_append, List.nil_append]


/-- Unfolding `forwardX86` once the scan loop's result is known. -/
theorem forwardX86_eq (src : List Nat) (count codeStart codeEnd : Nat)
    (emitted : List Nat) (srcIdxF m : Nat)
    (h : fwdLoop src codeEnd (codeEnd + 1 - codeStart) codeStart =
      some (emitted, srcIdxF, m)) :
    forwardX86 src count codeStart codeEnd =
      if m < 16 then FwdResult.declined
      else FwdResult.ok ([X86_MODE] ++ leWrite32 codeStart ++
        leWrite32 (9 + codeStart + emitted.length) ++
        src.take codeStart ++ emitted ++ (src.take count).drop srcIdxF) := by
  unfold forwardX86
  rw [h]

/-- **C3.** Round-trip of the X86 EXE transform: whenever `forwardX86`
succeeds on a block (the header detection selected the X86 path and the
scan found enough matches to return the transformed block), `inverseX86`
applied to that output reproduces the original block exactly.  The
hypotheses are the framing the source establishes before the call: the
buffer holds bytes, `src` has length `count`, `parseHeader` keeps
`codeStart <= codeEnd` and `codeEnd <= count - 8` (`codeEnd` starts out as
`count - 8`), and the block is within the codec's size limits. -/
theorem x86_roundtrip (src : List Nat) (count codeStart codeEnd : Nat) (dst : List Nat)
    (hbytes : ∀ b ∈ src, b < 256) (hcount : src.length = count)
    (hlen : codeEnd + 8 ≤ count) (hbound : codeEnd ≤ 2 ^ 29)
    (hcs : codeStart ≤ codeEnd)
    (hfwd : forwardX86 src count codeStart codeEnd = FwdResult.ok dst) :
    inverseX86 dst dst.length = some src := by
  rcases hfl : fwdLoop src codeEnd (codeEnd + 1 - codeStart) codeStart with
    _ | ⟨⟨emitted, srcIdxF, m⟩⟩
  · unfold forwardX86 at hfwd
    rw [hfl] at hfwd
    simp at hfwd
  · rw [forwardX86_eq src count codeStart codeEnd emitted srcIdxF m hfl] at hfwd
    split at hfwd
    · exact absurd hfwd (by simp)
    · rw [FwdResult.ok.injEq] at hfwd
      obtain ⟨hge, hle, hcnt⟩ :=
        fwdLoop_bounds src codeEnd (codeEnd + 1 - codeStart) codeStart emitted srcIdxF m hfl
      subst hfwd
      obtain ⟨D, hD⟩ : ∃ l, [X86_MODE] ++ leWrite32 codeStart ++
          leWrite32 (9 + codeStart + emitted.length) ++
          src.take codeStart ++ emitted ++ (src.take count).drop srcIdxF = l := ⟨_, rfl⟩
      rw [hD]
      have hv1 : D.getD 1 0 = codeStart % 256 := by rw [← hD]; rfl
      have hv2 : D.getD 2 0 = codeStart / 256 % 256 := by rw [← hD]; rfl
      have hv3 : D.getD 3 0 = codeStart / 65536 % 256 := by rw [← hD]; rfl
      have hv4 : D.getD 4 0 = codeStart / 16777216 % 256 := by rw [← hD]; rfl
      have hv5 : D.getD 5 0 = (9 + codeStart + emitted.length) % 256 := by rw [← hD]; rfl
      have hv6 : D.getD 6 0 = (9 + codeStart + emitted.length) / 256 % 256 := by rw [← hD]; rfl
      have hv7 : D.getD 7 0 = (9 + codeStart + emitted.length) / 65536 % 256 := by
        rw [← hD]; rfl
      have hv8 : D.getD 8 0 = (9 + codeStart + emitted.length) / 16777216 % 256 := by
        rw [← hD]; rfl
      simp only [inverseX86]
      rw [hv1, hv2, hv3, hv4, hv5, hv6, hv7, hv8,
        parse_le_header codeStart (by omega),
        parse_le_header (9 + codeStart + emitted.length) (by omega)]
      have hsim := inv_of_fwd src codeEnd hbytes (by omega) hbound
        (codeEnd + 1 - codeStart) codeStart emitted srcIdxF m hfl
        (9 + codeStart + emitted.length + 1)
        (X86_MODE :: codeStart % 256 :: codeStart / 256 % 256 :: codeStart / 65536 % 256 ::
          codeStart / 16777216 % 256 :: (9 + codeStart + emitted.length) % 256 ::
          (9 + codeStart + emitted.length) / 256 % 256 ::
          (9 + codeStart + emitted.length) / 65536 % 256 ::
          (9 + codeStart + emitted.length) / 16777216 % 256 :: src.take codeStart)
        ((src.take count).drop srcIdxF) D (9 + codeStart + emitted.length) (9 + codeStart)
        (by rw [← hD]; simp [leWrite32, List.append_assoc])
        (by simp only [List.length_cons, List.length_take]; omega)
        (by simp only [List.length_cons, List.length_take]; omega)
        (by omega)
      rw [hsim]
      simp only []
      refine congrArg some ?_
      have ha : (D.take (9 + codeStart)).drop 9 = src.take codeStart := by
        rw [← hD,
          show [X86_MODE] ++ leWrite32 codeStart ++
              leWrite32 (9 + codeStart + emitted.length) ++
              src.take codeStart ++ emitted ++ (src.take count).drop srcIdxF =
            (([X86_MODE] ++ leWrite32 codeStart ++
              leWrite32 (9 + codeStart + emitted.length)) ++ src.take codeStart) ++
              (emitted ++ (src.take count).drop srcIdxF) from by
            simp [List.append_assoc]]
        rw [List.take_left' (by simp [leWrite32]; omega),
          List.drop_left' (by simp [leWrite32])]
      have hb : (D.take D.length).drop (9 + codeStart + emitted.length) =
          (src.take count).drop srcIdxF := by
        rw [List.take_length, ← hD,
          show [X86_MODE] ++ leWrite32 codeStart ++
              leWrite32 (9 + codeStart + emitted.length) ++
              src.take codeStart ++ emitted ++ (src.take count).drop srcIdxF =
            (([X86_MODE] ++ leWrite32 codeStart ++
              leWrite32 (9 + codeStart + emitted.length)) ++ src.take codeStart ++
              emitted) ++ (src.take count).drop srcIdxF from by
            simp [List.append_assoc]]
        rw [List.drop_left' (by simp [leWrite32]; omega)]
      rw [ha, hb]
      have h1 := span_append src 0 codeStart srcIdxF (Nat.zero_le _) hge
      rw [List.drop_zero, List.drop_zero] at h1
      rw [h1]
      have h2 := span_append src 0 srcIdxF count (Nat.zero_le _) (by omega)
      rw [List.drop_zero, List.drop_zero] at h2
      rw [h2, ← hcount, List.take_length]


/-- Witness for **C3**: a block of sixteen `E8 01 00 00 00` calls and an
8-byte tail is transformed and recovered exactly. -/
theorem x86_roundtrip_witness :
    inverseX86
      [64, 0, 0, 0, 0, 89, 0, 0, 0, 232, 240, 240, 240, 241, 232, 240, 240, 240, 246, 232, 240, 240, 240, 251, 232, 240, 240, 240, 224, 232, 240, 240, 240, 229, 232, 240, 240, 240, 234, 232, 240, 240, 240, 239, 232, 240, 240, 240, 212, 232, 240, 240, 240, 217, 232, 240, 240, 240, 222, 232, 240, 240, 240, 195, 232, 240, 240, 240, 200, 232, 240, 240, 240, 205, 232, 240, 240, 240, 178, 232, 240, 240, 240, 183, 232, 240, 240, 240, 188, 0, 0, 0, 0, 0, 0, 0, 0]
      ([64, 0, 0, 0, 0, 89, 0, 0, 0, 232, 240, 240, 240, 241, 232, 240, 240, 240, 246, 232, 240, 240, 240, 251, 232, 240, 240, 240, 224, 232, 240, 240, 240, 229, 232, 240, 240, 240, 234, 232, 240, 240, 240, 239, 232, 240, 240, 240, 212, 232, 240, 240, 240, 217, 232, 240, 240, 240, 222, 232, 240, 240, 240, 195, 232, 240, 240, 240, 200, 232, 240, 240, 240, 205, 232, 240, 240, 240, 178, 232, 240, 240, 240, 183, 232, 240, 240, 240, 188, 0, 0, 0, 0, 0, 0, 0, 0] : List Nat).length =
    some [232, 1, 0, 0, 0, 232, 1, 0, 0, 0, 232, 1, 0, 0, 0, 232, 1, 0, 0, 0, 232, 1, 0, 0, 0, 232, 1, 0, 0, 0, 232, 1, 0, 0, 0, 232, 1, 0, 0, 0, 232, 1, 0, 0, 0, 232, 1, 0, 0, 0, 232, 1, 0, 0, 0, 232, 1, 0, 0, 0, 232, 1, 0, 0, 0, 232, 1, 0, 0, 0, 232, 1, 0, 0, 0, 232, 1, 0, 0, 0, 0, 0, 0, 0, 0, 0, 0, 0] :=
  x86_roundtrip
    [232, 1, 0, 0, 0, 232, 1, 0, 0, 0, 232, 1, 0, 0, 0, 232, 1, 0, 0, 0, 232, 1, 0, 0, 0, 232, 1, 0, 0, 0, 232, 1, 0, 0, 0, 232, 1, 0, 0, 0, 232, 1, 0, 0, 0, 232, 1, 0, 0, 0, 232, 1, 0, 0, 0, 232, 1, 0, 0, 0, 232, 1, 0, 0, 0, 232, 1, 0, 0, 0, 232, 1, 0, 0, 0, 232, 1, 0, 0, 0, 0, 0, 0, 0, 0, 0, 0, 0]
    88 0 80
    [64, 0, 0, 0, 0, 89, 0, 0, 0, 232, 240, 240, 240, 241, 232, 240, 240, 240, 246, 232, 240, 240, 240, 251, 232, 240, 240, 240, 224, 232, 240, 240, 240, 229, 232, 240, 240, 240, 234, 232, 240, 240, 240, 239, 232, 240, 240, 240, 212, 232, 240, 240, 240, 217, 232, 240, 240, 240, 222, 232, 240, 240, 240, 195, 232, 240, 240, 240, 200, 232, 240, 240, 240, 205, 232, 240, 240, 240, 178, 232, 240, 240, 240, 183, 232, 240, 240, 240, 188, 0, 0, 0, 0, 0, 0, 0, 0]
    (by decide) (by decide) (by decide) (by decide) (by decide) (by decide)


/-- **C9.** Both EXE forward variants decline by returning `false`
whenever the scan rewrote fewer than 16 branch targets: `forwardX86`
requires at least 16 rewritten X86 call/jump offsets and `forwardARM` at
least 16 true (non-false-positive) ARM64 branch matches. -/
theorem forward_declines_few_matches (src : List Nat) (count codeStart codeEnd : Nat)
    (eX : List Nat) (sX mX : Nat) (eA : List Nat) (sA mA : Nat) :
    (fwdLoop src codeEnd (codeEnd + 1 - codeStart) codeStart = some (eX, sX, mX) →
      mX < 16 → forwardX86 src count codeStart codeEnd = FwdResult.declined) ∧
    (armLoop src codeEnd (codeEnd + 1 - codeStart) codeStart 0 = some (eA, sA, mA) →
      mA < 16 → forwardARM src count codeStart codeEnd = FwdResult.declined) := by
  constructor
  · intro h hm
    unfold forwardX86
    rw [h]
    simp only [if_pos hm]
  · intro h hm
    unfold forwardARM
    rw [h]
    simp only [if_pos hm]

/-- Witness for **C9**: an empty code region finds 0 matches and both
variants decline. -/
theorem forward_declines_few_matches_witness :
    fwdLoop [] 0 1 0 = some ([], 0, 0) ∧ (0 : Nat) < 16 ∧
    forwardX86 [] 0 0 0 = FwdResult.declined ∧
    armLoop [] 0 1 0 0 = some ([], 0, 0) ∧
    forwardARM [] 0 0 0 = FwdResult.declined :=
  ⟨by decide, by decide,
   (forward_declines_few_matches [] 0 0 0 [] 0 0 [] 0 0).1 (by decide) (by decide),
   by decide,
   (forward_declines_few_matches [] 0 0 0 [] 0 0 [] 0 0).2 (by decide) (by decide)⟩

end X86Codec

/-! ## `BWT.cpp`: the block-sorting inverse's primary-index validation -/

namespace BWT

/-- Modelled from the spec: `BLOCK_SIZE_THRESHOLD1` lives in the absent
`BWT.hpp`; spec §4.2 only says the interleaved eight-chase path of
mergeTPSI is taken for blocks at least this large.  Modelled as 256. -/
def BLOCK_SIZE_THRESHOLD1 : Nat := 256

/-- Modelled from the spec: `BLOCK_SIZE_THRESHOLD2` (absent `BWT.hpp`),
the mergeTPSI/biPSIv2 strategy selector, about 4 MiB per spec §4.2. -/
def BLOCK_SIZE_THRESHOLD2 : Nat := 4 * 1024 * 1024

/-- Modelled from the spec: `Global::computeHistogram` (absent
`Global.hpp`) counts the occurrences of each byte value. -/
def hist (src : List Nat) (v : Nat) : Nat := src.count v

/-- The cumulative-sum loop over the 256 buckets (lines 1800-1804);
the bucket index `i = 256 - fuel` ascends as the fuel decreases. -/
def cumLoop : Nat → Nat → (Nat → Nat) → Nat → Nat
  | 0, _, b => b
  | n + 1, sum, b =>
    let i := 256 - (n + 1)
    cumLoop n (sum + b i) (Function.update b i sum)

/-- The packed-entry fill loops of `inverseMergeTPSI` (lines 1810-1820),
one pass over the block: positions below the primary index store the
32-bit pattern of `((i - 1) << 8) | val` (the sentinel at `i = 0`), later
positions store `(i << 8) | val`. -/
def fillLoop (pIdxN : Nat) : List Nat → Nat → (Nat → Nat) → (Nat → Nat) →
    (Nat → Nat) × (Nat → Nat)
  | [], _, bk, buf => (bk, buf)
  | v :: rest, i, bk, buf =>
    let e := if i < pIdxN then toUInt32 ((i : Int) - 1) * 256 % 2 ^ 32 ||| v
      else (i <<< 8) ||| v
    fillLoop pIdxN rest (i + 1) (Function.update bk v (bk v + 1))
      (Function.update buf (bk v) e)

/-- The single-chase reconstruction (lines 1822-1828).  `t` is a C `int`;
array reads are modelled by the total function, so the out-of-range reads
the C code can perform (undefined behaviour there) read the function's
value at the clamped index. -/
def chaseLoop (buf : Nat → Nat) : Nat → Int → Nat → (Nat → Nat) → (Nat → Nat)
  | 0, _, _, dst => dst
  | n + 1, t, i, dst =>
    let ptr := buf t.toNat
    chaseLoop buf n ((ptr : Int) >>> 8) (i + 1) (Function.update dst i (ptr % 256))

/-- One step of the interleaved chase (lines 1842-1868): read the packed
entry as a C `int`, emit its low byte, advance by the arithmetic shift.
Returns the written output, the next cursor and the raw signed entry. -/
def chaseStep (buf : Nat → Nat) (dst : Nat → Nat) (pos : Nat) (t : Int) :
    (Nat → Nat) × Int × Int :=
  let ptr := toInt32 (buf t.toNat)
  (Function.update dst pos (toUInt32 ptr % 256), ptr >>> 8, ptr)

/-- The eight-way interleaved chase (lines 1841-1871), breaking when the
last chase reads a sentinel entry (`ptr7 < 0`); `none` is fuel-out, the
formal stand-in for the unterminated loop on malformed chunk indices. -/
def chase8Loop (buf : Nat → Nat) (ckSize : Nat) :
    Nat → Int → Int → Int → Int → Int → Int → Int → Int → Nat → (Nat → Nat) →
    Option ((Int × Int × Int × Int × Int × Int × Int) × Nat × (Nat → Nat))
  | 0, _, _, _, _, _, _, _, _, _, _ => none
  | fuel + 1, t0, t1, t2, t3, t4, t5, t6, t7, n, dst =>
    let s0 := chaseStep buf dst n t0
    let s1 := chaseStep buf s0.1 (n + ckSize * 1) t1
    let s2 := chaseStep buf s1.1 (n + ckSize * 2) t2
    let s3 := chaseStep buf s2.1 (n + ckSize * 3) t3
    let s4 := chaseStep buf s3.1 (n + ckSize * 4) t4
    let s5 := chaseStep buf s4.1 (n + ckSize * 5) t5
    let s6 := chaseStep buf s5.1 (n + ckSize * 6) t6
    let s7 := chaseStep buf s6.1 (n + ckSize * 7) t7
    if s7.2.2 < 0 then
      some ((s0.2.1, s1.2.1, s2.2.1, s3.2.1, s4.2.1, s5.2.1, s6.2.1), n + 1, s7.1)
    else
      chase8Loop buf ckSize fuel s0.2.1 s1.2.1 s2.2.1 s3.2.1 s4.2.1 s5.2.1 s6.2.1 s7.2.1
        (n + 1) s7.1

/-- The drain loop (lines 1873-1897): chases 0-6 continue without any
termination test until `ckSize` positions are filled. -/
def drainLoop (buf : Nat → Nat) (ckSize : Nat) :
    Nat → Int → Int → Int → Int → Int → Int → Int → Nat → (Nat → Nat) → (Nat → Nat)
  | 0, _, _, _, _, _, _, _, _, dst => dst
  | fuel + 1, t0, t1, t2, t3, t4, t5, t6, n, dst =>
    if n < ckSize then
      let s0 := chaseStep buf dst n t0
      let s1 := chaseStep buf s0.1 (n + ckSize * 1) t1
      let s2 := chaseStep buf s1.1 (n + ckSize * 2) t2
      let s3 := chaseStep buf s2.1 (n + ckSize * 3) t3
      let s4 := chaseStep buf s3.1 (n + ckSize * 4) t4
      let s5 := chaseStep buf s4.1 (n + ckSize * 5) t5
      let s6 := chaseStep buf s5.1 (n + ckSize * 6) t6
      drainLoop buf ckSize fuel s0.2.1 s1.2.1 s2.2.1 s3.2.1 s4.2.1 s5.2.1 s6.2.1
        (n + 1) s6.1
    else dst

/-- `BWT::inverseMergeTPSI` (lines 1780-1901): validate `primaryIndex[0]`
only, build the packed link array, then chase - a single chase below
`BLOCK_SIZE_THRESHOLD1`, otherwise the interleaved eight-chase whose
starting cursors come from chunk indices 1-7 without any range check.
Returns the success flag and the rebuilt block as a total function. -/
def inverseMergeTPSI (pI : Nat → Int) (src : List Nat) (count : Nat) :
    Option (Bool × (Nat → Nat)) :=
  let pIdx := pI 0
  if pIdx < 0 ∨ pIdx > (count : Int) then some (false, fun _ => 0)
  else
    let fl := fillLoop pIdx.toNat (src.take count) 0
      (cumLoop 256 0 (hist (src.take count))) (fun _ => 0)
    if count < BLOCK_SIZE_THRESHOLD1 then
      some (true, chaseLoop fl.2 count (pIdx - 1) 0 (fun _ => 0))
    else
      let ckSize := if count &&& 7 = 0 then count >>> 3 else (count >>> 3) + 1
      match chase8Loop fl.2 ckSize (count + 1) (pI 0 - 1) (pI 1 - 1) (pI 2 - 1)
        (pI 3 - 1) (pI 4 - 1) (pI 5 - 1) (pI 6 - 1) (pI 7 - 1) 0 (fun _ => 0) with
      | none => none
      | some (ts, n, dst1) =>
        some (true, drainLoop fl.2 ckSize ckSize ts.1 ts.2.1 ts.2.2.1 ts.2.2.2.1
          ts.2.2.2.2.1 ts.2.2.2.2.2.1 ts.2.2.2.2.2.2 n dst1)

/-- **C4.** Amended: the mergeTPSI BWT inverse validates only chunk 0's
primary index.  It returns `false` exactly when `primaryIndex[0]` is
negative or exceeds the block count; the chunk indices 1-7 that drive its
interleaved eight-chase path are dereferenced without any range check
(the counterexample exhibits an out-of-range `primaryIndex[1]` on a block
the strategy still accepts). -/
theorem inverseMergeTPSI_validates_chunk0_only (pI : Nat → Int) (src : List Nat)
    (count : Nat) :
    ((pI 0 < 0 ∨ pI 0 > (count : Int)) →
      inverseMergeTPSI pI src count = some (false, fun _ => 0)) ∧
    (∀ f : Nat → Nat, inverseMergeTPSI pI src count = some (false, f) →
      pI 0 < 0 ∨ pI 0 > (count : Int)) := by
  constructor
  · intro h
    unfold inverseMergeTPSI
    rw [if_pos h]
  · intro f hf
    by_contra hcon
    simp only [inverseMergeTPSI] at hf
    rw [if_neg hcon] at hf
    split at hf
    · simp at hf
    · split at hf
      · simp at hf
      · simp at hf

/-- Witness for **C4**: a primary index of 300 on a 3-byte block is
rejected. -/
theorem inverseMergeTPSI_validates_chunk0_only_witness :
    inverseMergeTPSI (fun _ => 300) [1, 2, 3] 3 = some (false, fun _ => 0) :=
  (inverseMergeTPSI_validates_chunk0_only (fun _ => 300) [1, 2, 3] 3).1
    (by decide)

set_option maxRecDepth 4096 in
/-- Counterexample for **C4**: on a 256-byte block the selected strategy
(mergeTPSI, interleaved path) uses `primaryIndex[1]`; with
`primaryIndex[1] = 257 > 256` out of range the inverse still returns
`true` instead of failing, because only chunk 0 is validated. -/
theorem bwt_chunk_index_unvalidated_counterexample :
    (inverseMergeTPSI (fun i => if i = 1 then 257 else 1)
        (List.replicate 256 0) 256).map Prod.fst = some true ∧
      ((257 : Int) > ((256 : Nat) : Int)) := by
  constructor
  · decide
  · decide

end BWT


end Kanzi
